import Mathlib

/-!
Verification development for the sbepp runtime header (`sbepp/sbepp.hpp`):
the view/cursor/traversal engine of an SBE-style binary codec.  Each C++
entity used by a claim is shallowly embedded as an executable Lean
definition; machine integers are modelled as `Nat` (bit patterns) with
explicit `% 2^w` where overflow matters, memory as a total function
`Nat → Nat` of byte values, and assertion failures (the pluggable
`SBEPP_ASSERT` hook, which is `[[noreturn]]`) as the `Except.error` branch
carrying the memory state at the moment the hook fires.
-/

namespace Sbepp

/-- Wire/native byte order (`sbepp::endian`, sbepp.hpp:298-330).  Only
`little` and `big` exist for buffers; `native` is one of the two,
passed here as an explicit parameter. -/
inductive Endian where
  | little
  | big
deriving DecidableEq, Repr

/-- Little-endian byte decomposition of a `w`-byte value: the semantics of
`std::memcpy`/`std::bit_cast` from an integer to a byte array on a
little-endian host. -/
def toBytesLE : Nat → Nat → List Nat
  | 0, _ => []
  | w + 1, v => v % 256 :: toBytesLE w (v / 256)

/-- Reassembling an integer from little-endian bytes: the semantics of
`std::memcpy`/`std::bit_cast` from a byte array on a little-endian host. -/
def fromBytesLE : List Nat → Nat
  | [] => 0
  | b :: bs => b + 256 * fromBytesLE bs

/-- Byte image of a `w`-byte value in the host's native order
(`std::bit_cast<std::array<Byte, sizeof(T)>>(value)`). -/
def natBytes (native : Endian) (w v : Nat) : List Nat :=
  match native with
  | .little => toBytesLE w v
  | .big => (toBytesLE w v).reverse

/-- Value held by a native-order byte array (`std::bit_cast<T>(arr)`). -/
def natFromBytes (native : Endian) (bs : List Nat) : Nat :=
  match native with
  | .little => fromBytesLE bs
  | .big => fromBytesLE bs.reverse

/-- Portable 16-bit byte swap fallback (sbepp.hpp:458-461). -/
def byteswap16 (v : Nat) : Nat :=
  ((v &&& 0x00FF) <<< 8) ||| ((v &&& 0xFF00) >>> 8)

/-- Portable 32-bit byte swap fallback (sbepp.hpp:450-456). -/
def byteswap32 (v : Nat) : Nat :=
  ((v &&& 0x000000FF) <<< 24) ||| ((v &&& 0x0000FF00) <<< 8)
    ||| ((v &&& 0x00FF0000) >>> 8) ||| ((v &&& 0xFF000000) >>> 24)

/-- Portable 64-bit byte swap fallback (sbepp.hpp:438-448). -/
def byteswap64 (v : Nat) : Nat :=
  ((v &&& 0x00000000000000FF) <<< 56) ||| ((v &&& 0x000000000000FF00) <<< 40)
    ||| ((v &&& 0x0000000000FF0000) <<< 24) ||| ((v &&& 0x00000000FF000000) <<< 8)
    ||| ((v &&& 0x000000FF00000000) >>> 8) ||| ((v &&& 0x0000FF0000000000) >>> 24)
    ||| ((v &&& 0x00FF000000000000) >>> 40) ||| ((v &&& 0xFF00000000000000) >>> 56)

/-- Width-dispatched `detail::byteswap` overload set; the source only
declares it for multi-byte unsigned types, single-byte values never reach
it (guard `sizeof(T) == 1` in the callers). -/
def byteswapW (w v : Nat) : Nat :=
  match w with
  | 2 => byteswap16 v
  | 4 => byteswap32 v
  | 8 => byteswap64 v
  | _ => v

/-- Bytes written by `detail::set_primitive<E>` on the
`SBEPP_HAS_BITCAST` path (sbepp.hpp:499-508): bit-cast to a native-order
byte array, then `std::copy` when `E == endian::native || sizeof(T) == 1`,
otherwise `std::reverse_copy`. -/
def set_primitive (native e : Endian) (w v : Nat) : List Nat :=
  if e = native ∨ w = 1 then natBytes native w v
  else (natBytes native w v).reverse

/-- Value returned by `detail::get_primitive<T,E>` on the
`SBEPP_HAS_BITCAST` path (sbepp.hpp:469-479) from the `w` bytes at the
read address. -/
def get_primitive (native e : Endian) (w : Nat) (bs : List Nat) : Nat :=
  if e = native ∨ w = 1 then natFromBytes native bs
  else natFromBytes native bs.reverse

/-- Bytes written by `detail::set_primitive<E>` on the pre-bit-cast path
(sbepp.hpp:509-517): byte-swap the value when
`E != endian::native && sizeof(T) != 1`, then `std::memcpy`. -/
def set_primitive_swap (native e : Endian) (w v : Nat) : List Nat :=
  if e ≠ native ∧ w ≠ 1 then natBytes native w (byteswapW w v)
  else natBytes native w v

/-- Value returned by `detail::get_primitive<T,E>` on the pre-bit-cast
path (sbepp.hpp:480-493): `std::memcpy` into the result, then byte-swap
when `E != endian::native && sizeof(T) != 1`. -/
def get_primitive_swap (native e : Endian) (w : Nat) (bs : List Nat) : Nat :=
  if e = native ∨ w = 1 then natFromBytes native bs
  else byteswapW w (natFromBytes native bs)

/-- Caller-owned memory: a total byte store.  Views hold offsets into it;
offsets past a view's `end` index model out-of-bounds addresses. -/
def Mem : Type := Nat → Nat

/-- Single byte store (`*ptr = value`). -/
def writeByte (m : Mem) (i v : Nat) : Mem :=
  fun j => if j = i then v % 256 else m j

/-- Store a byte list at consecutive addresses starting at `p`. -/
def writeBytesAt (m : Mem) (p : Nat) : List Nat → Mem
  | [] => m
  | b :: bs => writeBytesAt (writeByte m p b) (p + 1) bs

/-- Load `w` bytes from consecutive addresses starting at `p`. -/
def readBytesAt (m : Mem) (p : Nat) : Nat → List Nat
  | 0 => []
  | w + 1 => m p :: readBytesAt m (p + 1) w

/-- Whole-primitive store through the codec
(`detail::set_primitive<E>(ptr, value)` acting on memory). -/
def writePrim (native e : Endian) (m : Mem) (p w v : Nat) : Mem :=
  writeBytesAt m p (set_primitive native e w v)

/-- Whole-primitive load through the codec
(`detail::get_primitive<T,E>(ptr)` acting on memory). -/
def readPrim (native e : Endian) (m : Mem) (p w : Nat) : Nat :=
  get_primitive native e w (readBytesAt m p w)

/-! Arithmetic bridge lemmas for the mask-and-shift byteswap bodies. -/

theorem and_mask_at (v j : Nat) : v &&& (255 <<< j) = v / 2 ^ j % 2 ^ 8 * 2 ^ j := by
  have h255 : (255 : Nat) = 2 ^ 8 - 1 := by norm_num
  have hr : v / 2 ^ j % 2 ^ 8 * 2 ^ j = ((v >>> j) % 2 ^ 8) <<< j := by
    rw [Nat.shiftLeft_eq, Nat.shiftRight_eq_div_pow]
  rw [h255, hr]
  apply Nat.eq_of_testBit_eq
  intro i
  simp only [Nat.testBit_land, Nat.testBit_shiftLeft, Nat.testBit_shiftRight,
    Nat.testBit_mod_two_pow, Nat.testBit_two_pow_sub_one]
  by_cases hij : j ≤ i
  · have hji : j + (i - j) = i := by omega
    rw [hji]
    simp [hij, Bool.and_comm, Bool.and_left_comm]
  · simp [hij]

theorem lor_eq_add_pow (j x y q : Nat) (hx : x = 2 ^ j * q) (hy : y < 2 ^ j) :
    x ||| y = x + y := by
  subst hx
  exact (Nat.mul_add_lt_is_or hy q).symm

/-- Arithmetic characterisation of `byteswap(uint16_t)`: the two bytes of
the low 16 bits exchange places. -/
theorem byteswap16_spec (v : Nat) :
    byteswap16 v = v % 256 * 256 + v / 256 % 256 := by
  unfold byteswap16
  rw [show (0x00FF : Nat) = 255 <<< 0 from rfl, show (0xFF00 : Nat) = 255 <<< 8 from rfl]
  simp only [and_mask_at]
  simp only [Nat.shiftLeft_eq, Nat.shiftRight_eq_div_pow]
  norm_num
  rw [lor_eq_add_pow 8 (v % 256 * 256) (v / 256 % 256) (v % 256)
    (by rw [Nat.mul_comm]; norm_num) (by omega)]

/-- Arithmetic characterisation of `byteswap(uint32_t)`: the four bytes of
the low 32 bits are reversed. -/
theorem byteswap32_spec (v : Nat) :
    byteswap32 v = v % 256 * 16777216 + v / 256 % 256 * 65536
      + v / 65536 % 256 * 256 + v / 16777216 % 256 := by
  unfold byteswap32
  rw [show (0x000000FF : Nat) = 255 <<< 0 from rfl,
    show (0x0000FF00 : Nat) = 255 <<< 8 from rfl,
    show (0x00FF0000 : Nat) = 255 <<< 16 from rfl,
    show (0xFF000000 : Nat) = 255 <<< 24 from rfl]
  simp only [and_mask_at]
  simp only [Nat.shiftLeft_eq, Nat.shiftRight_eq_div_pow]
  norm_num
  rw [show v / 256 % 256 * 256 * 256 = v / 256 % 256 * 65536 from by ring]
  rw [show v / 65536 % 256 * 65536 / 256 = v / 65536 % 256 * 256 from by omega]
  rw [lor_eq_add_pow 24 (v % 256 * 16777216) (v / 256 % 256 * 65536) (v % 256)
    (by rw [Nat.mul_comm]; norm_num) (by omega)]
  rw [lor_eq_add_pow 16 (v % 256 * 16777216 + v / 256 % 256 * 65536)
    (v / 65536 % 256 * 256) (v % 256 * 256 + v / 256 % 256)
    (by rw [Nat.mul_add]; ring_nf) (by omega)]
  rw [lor_eq_add_pow 8
    (v % 256 * 16777216 + v / 256 % 256 * 65536 + v / 65536 % 256 * 256)
    (v / 16777216 % 256)
    (v % 256 * 65536 + v / 256 % 256 * 256 + v / 65536 % 256)
    (by ring_nf) (by omega)]

/-- Arithmetic characterisation of `byteswap(uint64_t)`: the eight bytes of
the low 64 bits are reversed. -/
theorem byteswap64_spec (v : Nat) :
    byteswap64 v = v % 256 * 72057594037927936 + v / 256 % 256 * 281474976710656
      + v / 65536 % 256 * 1099511627776 + v / 16777216 % 256 * 4294967296
      + v / 4294967296 % 256 * 16777216 + v / 1099511627776 % 256 * 65536
      + v / 281474976710656 % 256 * 256 + v / 72057594037927936 % 256 := by
  unfold byteswap64
  rw [show (0x00000000000000FF : Nat) = 255 <<< 0 from rfl,
    show (0x000000000000FF00 : Nat) = 255 <<< 8 from rfl,
    show (0x0000000000FF0000 : Nat) = 255 <<< 16 from rfl,
    show (0x00000000FF000000 : Nat) = 255 <<< 24 from rfl,
    show (0x000000FF00000000 : Nat) = 255 <<< 32 from rfl,
    show (0x0000FF0000000000 : Nat) = 255 <<< 40 from rfl,
    show (0x00FF000000000000 : Nat) = 255 <<< 48 from rfl,
    show (0xFF00000000000000 : Nat) = 255 <<< 56 from rfl]
  simp only [and_mask_at]
  simp only [Nat.shiftLeft_eq, Nat.shiftRight_eq_div_pow]
  norm_num
  rw [show v / 256 % 256 * 256 * 1099511627776 = v / 256 % 256 * 281474976710656 from by ring]
  rw [show v / 65536 % 256 * 65536 * 16777216 = v / 65536 % 256 * 1099511627776 from by ring]
  rw [show v / 16777216 % 256 * 16777216 * 256 = v / 16777216 % 256 * 4294967296 from by ring]
  rw [show v / 4294967296 % 256 * 4294967296 / 256 = v / 4294967296 % 256 * 16777216 from by omega]
  rw [show v / 1099511627776 % 256 * 1099511627776 / 16777216 = v / 1099511627776 % 256 * 65536 from by omega]
  rw [show v / 281474976710656 % 256 * 281474976710656 / 1099511627776 = v / 281474976710656 % 256 * 256 from by omega]
  rw [lor_eq_add_pow 56 (v % 256 * 72057594037927936) (v / 256 % 256 * 281474976710656)
    (v % 256) (by norm_num; ring) (by omega)]
  rw [lor_eq_add_pow 48
    (v % 256 * 72057594037927936 + v / 256 % 256 * 281474976710656)
    (v / 65536 % 256 * 1099511627776)
    (v % 256 * 256 + v / 256 % 256) (by norm_num; ring) (by omega)]
  rw [lor_eq_add_pow 40
    (v % 256 * 72057594037927936 + v / 256 % 256 * 281474976710656
      + v / 65536 % 256 * 1099511627776)
    (v / 16777216 % 256 * 4294967296)
    (v % 256 * 65536 + v / 256 % 256 * 256 + v / 65536 % 256) (by norm_num; ring) (by omega)]
  rw [lor_eq_add_pow 32
    (v % 256 * 72057594037927936 + v / 256 % 256 * 281474976710656
      + v / 65536 % 256 * 1099511627776 + v / 16777216 % 256 * 4294967296)
    (v / 4294967296 % 256 * 16777216)
    (v % 256 * 16777216 + v / 256 % 256 * 65536 + v / 65536 % 256 * 256 + v / 16777216 % 256)
    (by norm_num; ring) (by omega)]
  rw [lor_eq_add_pow 24
    (v % 256 * 72057594037927936 + v / 256 % 256 * 281474976710656
      + v / 65536 % 256 * 1099511627776 + v / 16777216 % 256 * 4294967296
      + v / 4294967296 % 256 * 16777216)
    (v / 1099511627776 % 256 * 65536)
    (v % 256 * 4294967296 + v / 256 % 256 * 16777216 + v / 65536 % 256 * 65536
      + v / 16777216 % 256 * 256 + v / 4294967296 % 256)
    (by norm_num; ring) (by omega)]
  rw [lor_eq_add_pow 16
    (v % 256 * 72057594037927936 + v / 256 % 256 * 281474976710656
      + v / 65536 % 256 * 1099511627776 + v / 16777216 % 256 * 4294967296
      + v / 4294967296 % 256 * 16777216 + v / 1099511627776 % 256 * 65536)
    (v / 281474976710656 % 256 * 256)
    (v % 256 * 1099511627776 + v / 256 % 256 * 4294967296 + v / 65536 % 256 * 16777216
      + v / 16777216 % 256 * 65536 + v / 4294967296 % 256 * 256 + v / 1099511627776 % 256)
    (by norm_num; ring) (by omega)]
  rw [lor_eq_add_pow 8
    (v % 256 * 72057594037927936 + v / 256 % 256 * 281474976710656
      + v / 65536 % 256 * 1099511627776 + v / 16777216 % 256 * 4294967296
      + v / 4294967296 % 256 * 16777216 + v / 1099511627776 % 256 * 65536
      + v / 281474976710656 % 256 * 256)
    (v / 72057594037927936 % 256)
    (v % 256 * 281474976710656 + v / 256 % 256 * 1099511627776 + v / 65536 % 256 * 4294967296
      + v / 16777216 % 256 * 16777216 + v / 4294967296 % 256 * 65536
      + v / 1099511627776 % 256 * 256 + v / 281474976710656 % 256)
    (by norm_num; ring) (by omega)]

/-- Bound for each byteswap output. -/
theorem byteswap16_lt (v : Nat) : byteswap16 v < 65536 := by
  rw [byteswap16_spec]
  omega

theorem byteswap32_lt (v : Nat) : byteswap32 v < 4294967296 := by
  rw [byteswap32_spec]
  omega

theorem byteswap64_lt (v : Nat) : byteswap64 v < 18446744073709551616 := by
  rw [byteswap64_spec]
  omega

/-- Byte-reversal of an explicit two-byte value. -/
theorem bytes2_extract (a0 a1 : Nat) (h0 : a0 < 256) (h1 : a1 < 256) :
    byteswap16 (a0 * 256 + a1) = a1 * 256 + a0 := by
  rw [byteswap16_spec]
  omega

/-- Applying `byteswap(uint16_t)` twice is the identity on 16-bit values. -/
theorem byteswap16_inv (v : Nat) (h : v < 65536) :
    byteswap16 (byteswap16 v) = v := by
  rw [byteswap16_spec v]
  rw [bytes2_extract (v % 256) (v / 256 % 256) (by omega) (by omega)]
  omega

/-- Byte-reversal of an explicit four-byte value. -/
theorem bytes4_extract (a0 a1 a2 a3 : Nat)
    (h0 : a0 < 256) (h1 : a1 < 256) (h2 : a2 < 256) (h3 : a3 < 256) :
    byteswap32 (a0 * 16777216 + a1 * 65536 + a2 * 256 + a3)
      = a3 * 16777216 + a2 * 65536 + a1 * 256 + a0 := by
  rw [byteswap32_spec]
  have d1 : (a0 * 16777216 + a1 * 65536 + a2 * 256 + a3) / 256
      = a0 * 65536 + a1 * 256 + a2 := by omega
  have d2 : (a0 * 16777216 + a1 * 65536 + a2 * 256 + a3) / 65536
      = a0 * 256 + a1 := by
    rw [show (65536 : Nat) = 256 * 256 from rfl, ← Nat.div_div_eq_div_mul, d1]
    omega
  have d3 : (a0 * 16777216 + a1 * 65536 + a2 * 256 + a3) / 16777216 = a0 := by
    rw [show (16777216 : Nat) = 65536 * 256 from rfl, ← Nat.div_div_eq_div_mul, d2]
    omega
  rw [d1, d2, d3]
  omega

/-- Applying `byteswap(uint32_t)` twice is the identity on 32-bit values. -/
theorem byteswap32_inv (v : Nat) (h : v < 4294967296) :
    byteswap32 (byteswap32 v) = v := by
  rw [byteswap32_spec v]
  rw [bytes4_extract (v % 256) (v / 256 % 256) (v / 65536 % 256) (v / 16777216 % 256)
    (by omega) (by omega) (by omega) (by omega)]
  have r1 : v % 65536 = v / 256 % 256 * 256 + v % 256 := by omega
  have r2 : v % 16777216 = v / 65536 % 256 * 65536 + v % 65536 := by omega
  have r3 : v % 4294967296 = v / 16777216 % 256 * 16777216 + v % 16777216 := by omega
  omega

set_option maxHeartbeats 1600000 in
/-- Byte-reversal of an explicit eight-byte value: the workhorse behind the
64-bit involution proof. -/
theorem bytes8_extract (a0 a1 a2 a3 a4 a5 a6 a7 : Nat)
    (h0 : a0 < 256) (h1 : a1 < 256) (h2 : a2 < 256) (h3 : a3 < 256)
    (h4 : a4 < 256) (h5 : a5 < 256) (h6 : a6 < 256) (h7 : a7 < 256) :
    byteswap64 (a0 * 72057594037927936 + a1 * 281474976710656
      + a2 * 1099511627776 + a3 * 4294967296 + a4 * 16777216 + a5 * 65536
      + a6 * 256 + a7)
    = a7 * 72057594037927936 + a6 * 281474976710656 + a5 * 1099511627776
      + a4 * 4294967296 + a3 * 16777216 + a2 * 65536 + a1 * 256 + a0 := by
  rw [byteswap64_spec]
  have d1 : (a0 * 72057594037927936 + a1 * 281474976710656
      + a2 * 1099511627776 + a3 * 4294967296 + a4 * 16777216 + a5 * 65536
      + a6 * 256 + a7) / 256
      = a0 * 281474976710656 + a1 * 1099511627776 + a2 * 4294967296
        + a3 * 16777216 + a4 * 65536 + a5 * 256 + a6 := by omega
  have d2 : (a0 * 72057594037927936 + a1 * 281474976710656
      + a2 * 1099511627776 + a3 * 4294967296 + a4 * 16777216 + a5 * 65536
      + a6 * 256 + a7) / 65536
      = a0 * 1099511627776 + a1 * 4294967296 + a2 * 16777216
        + a3 * 65536 + a4 * 256 + a5 := by
    rw [show (65536 : Nat) = 256 * 256 from rfl, ← Nat.div_div_eq_div_mul, d1]
    omega
  have d3 : (a0 * 72057594037927936 + a1 * 281474976710656
      + a2 * 1099511627776 + a3 * 4294967296 + a4 * 16777216 + a5 * 65536
      + a6 * 256 + a7) / 16777216
      = a0 * 4294967296 + a1 * 16777216 + a2 * 65536 + a3 * 256 + a4 := by
    rw [show (16777216 : Nat) = 65536 * 256 from rfl, ← Nat.div_div_eq_div_mul, d2]
    omega
  have d4 : (a0 * 72057594037927936 + a1 * 281474976710656
      + a2 * 1099511627776 + a3 * 4294967296 + a4 * 16777216 + a5 * 65536
      + a6 * 256 + a7) / 4294967296
      = a0 * 16777216 + a1 * 65536 + a2 * 256 + a3 := by
    rw [show (4294967296 : Nat) = 16777216 * 256 from rfl, ← Nat.div_div_eq_div_mul, d3]
    omega
  have d5 : (a0 * 72057594037927936 + a1 * 281474976710656
      + a2 * 1099511627776 + a3 * 4294967296 + a4 * 16777216 + a5 * 65536
      + a6 * 256 + a7) / 1099511627776
      = a0 * 65536 + a1 * 256 + a2 := by
    rw [show (1099511627776 : Nat) = 4294967296 * 256 from rfl, ← Nat.div_div_eq_div_mul, d4]
    omega
  have d6 : (a0 * 72057594037927936 + a1 * 281474976710656
      + a2 * 1099511627776 + a3 * 4294967296 + a4 * 16777216 + a5 * 65536
      + a6 * 256 + a7) / 281474976710656
      = a0 * 256 + a1 := by
    rw [show (281474976710656 : Nat) = 1099511627776 * 256 from rfl, ← Nat.div_div_eq_div_mul, d5]
    omega
  have d7 : (a0 * 72057594037927936 + a1 * 281474976710656
      + a2 * 1099511627776 + a3 * 4294967296 + a4 * 16777216 + a5 * 65536
      + a6 * 256 + a7) / 72057594037927936
      = a0 := by
    rw [show (72057594037927936 : Nat) = 281474976710656 * 256 from rfl, ← Nat.div_div_eq_div_mul, d6]
    omega
  rw [d1, d2, d3, d4, d5, d6, d7]
  omega

set_option maxHeartbeats 1600000 in
/-- Applying `byteswap(uint64_t)` twice is the identity on 64-bit values. -/
theorem byteswap64_inv (v : Nat) (h : v < 18446744073709551616) :
    byteswap64 (byteswap64 v) = v := by
  rw [byteswap64_spec v]
  rw [bytes8_extract (v % 256) (v / 256 % 256) (v / 65536 % 256) (v / 16777216 % 256)
    (v / 4294967296 % 256) (v / 1099511627776 % 256) (v / 281474976710656 % 256)
    (v / 72057594037927936 % 256)
    (by omega) (by omega) (by omega) (by omega) (by omega) (by omega) (by omega) (by omega)]
  have r1 : v % 65536 = v / 256 % 256 * 256 + v % 256 := by omega
  have r2 : v % 16777216 = v / 65536 % 256 * 65536 + v % 65536 := by omega
  have r3 : v % 4294967296 = v / 16777216 % 256 * 16777216 + v % 16777216 := by omega
  have r4 : v % 1099511627776 = v / 4294967296 % 256 * 4294967296 + v % 4294967296 := by omega
  have r5 : v % 281474976710656 = v / 1099511627776 % 256 * 1099511627776 + v % 1099511627776 := by omega
  have r6 : v % 72057594037927936 = v / 281474976710656 % 256 * 281474976710656 + v % 281474976710656 := by omega
  have r7 : v % 18446744073709551616 = v / 72057594037927936 % 256 * 72057594037927936 + v % 72057594037927936 := by omega
  omega

/-- Bound for `detail::byteswap` at the widths it is instantiated at. -/
theorem byteswapW_lt (w v : Nat) (hv : v < 2 ^ (8 * w)) :
    byteswapW w v < 2 ^ (8 * w) := by
  match w with
  | 2 => exact byteswap16_lt v
  | 4 => exact byteswap32_lt v
  | 8 => exact byteswap64_lt v
  | 0 => exact hv
  | 1 => exact hv
  | 3 => exact hv
  | 5 => exact hv
  | 6 => exact hv
  | 7 => exact hv
  | n + 9 => exact hv

/-- The byte-swap fallback is an involution at every instantiated width. -/
theorem byteswapW_inv (w v : Nat) (hw : w = 1 ∨ w = 2 ∨ w = 4 ∨ w = 8)
    (hv : v < 2 ^ (8 * w)) : byteswapW w (byteswapW w v) = v := by
  rcases hw with rfl | rfl | rfl | rfl
  · rfl
  · exact byteswap16_inv v (by norm_num at hv ⊢; omega)
  · exact byteswap32_inv v (by norm_num at hv ⊢; omega)
  · exact byteswap64_inv v (by norm_num at hv ⊢; omega)

/-! Byte-list and memory lemmas. -/

theorem toBytesLE_length (w v : Nat) : (toBytesLE w v).length = w := by
  induction w generalizing v with
  | zero => rfl
  | succ n ih => simp [toBytesLE, ih]

theorem toBytesLE_lt (w v : Nat) : ∀ b ∈ toBytesLE w v, b < 256 := by
  induction w generalizing v with
  | zero => simp [toBytesLE]
  | succ n ih =>
    intro b hb
    simp only [toBytesLE, List.mem_cons] at hb
    rcases hb with hb | hb
    · omega
    · exact ih _ b hb

theorem fromBytesLE_toBytesLE (w v : Nat) :
    fromBytesLE (toBytesLE w v) = v % 2 ^ (8 * w) := by
  induction w generalizing v with
  | zero => simp [toBytesLE, fromBytesLE, Nat.mod_one]
  | succ n ih =>
    simp only [toBytesLE, fromBytesLE, ih]
    rw [show (2 : Nat) ^ (8 * (n + 1)) = 256 * 2 ^ (8 * n) by
      rw [show 8 * (n + 1) = 8 + 8 * n by ring, pow_add]; norm_num]
    rw [Nat.mod_mul]

theorem natBytes_length (native : Endian) (w v : Nat) :
    (natBytes native w v).length = w := by
  cases native <;> simp [natBytes, toBytesLE_length]

theorem natBytes_lt (native : Endian) (w v : Nat) :
    ∀ b ∈ natBytes native w v, b < 256 := by
  cases native <;> simp [natBytes] <;> exact fun b hb => toBytesLE_lt w v b hb

theorem natFromBytes_natBytes (native : Endian) (w v : Nat) :
    natFromBytes native (natBytes native w v) = v % 2 ^ (8 * w) := by
  cases native <;>
    simp [natBytes, natFromBytes, List.reverse_reverse, fromBytesLE_toBytesLE]

theorem writeByte_ne (m : Mem) (i v j : Nat) (h : j ≠ i) :
    writeByte m i v j = m j := by
  simp [writeByte, h]

theorem writeBytesAt_lt (bs : List Nat) (m : Mem) (p q : Nat) (h : q < p) :
    writeBytesAt m p bs q = m q := by
  induction bs generalizing m p with
  | nil => rfl
  | cons b bs ih =>
    simp only [writeBytesAt]
    rw [ih _ _ (by omega), writeByte_ne _ _ _ _ (by omega)]

theorem readBytesAt_writeBytesAt (bs : List Nat) (m : Mem) (p : Nat)
    (hb : ∀ b ∈ bs, b < 256) :
    readBytesAt (writeBytesAt m p bs) p bs.length = bs := by
  induction bs generalizing m p with
  | nil => rfl
  | cons b bs ih =>
    simp only [writeBytesAt, List.length_cons, readBytesAt]
    congr 1
    · rw [writeBytesAt_lt _ _ _ _ (by omega)]
      simp only [writeByte, if_pos rfl]
      exact Nat.mod_eq_of_lt (hb b (by simp))
    · exact ih _ _ (fun x hx => hb x (by simp [hx]))

theorem readBytesAt_writeBytesAt_len (bs : List Nat) (m : Mem) (p w : Nat)
    (hw : bs.length = w) (hb : ∀ b ∈ bs, b < 256) :
    readBytesAt (writeBytesAt m p bs) p w = bs := by
  subst hw
  exact readBytesAt_writeBytesAt bs m p hb

/-! Round trips through the primitive codec. -/

/-- Round trip on the `std::bit_cast` path: reading back the bytes written
by `set_primitive` recovers the value bit-for-bit. -/
theorem get_set_primitive (native e : Endian) (w v : Nat) (hv : v < 2 ^ (8 * w)) :
    get_primitive native e w (set_primitive native e w v) = v := by
  unfold get_primitive set_primitive
  by_cases h : e = native ∨ w = 1
  · rw [if_pos h, if_pos h, natFromBytes_natBytes, Nat.mod_eq_of_lt hv]
  · rw [if_neg h, if_neg h, List.reverse_reverse, natFromBytes_natBytes,
      Nat.mod_eq_of_lt hv]

/-- Round trip on the `std::memcpy` + `byteswap` fallback path. -/
theorem get_set_primitive_swap (native e : Endian) (w v : Nat)
    (hw : w = 1 ∨ w = 2 ∨ w = 4 ∨ w = 8) (hv : v < 2 ^ (8 * w)) :
    get_primitive_swap native e w (set_primitive_swap native e w v) = v := by
  unfold get_primitive_swap set_primitive_swap
  by_cases h : e = native ∨ w = 1
  · have h2 : ¬(e ≠ native ∧ w ≠ 1) := by tauto
    rw [if_neg h2, if_pos h, natFromBytes_natBytes, Nat.mod_eq_of_lt hv]
  · have h2 : e ≠ native ∧ w ≠ 1 := by tauto
    rw [if_pos h2, if_neg h, natFromBytes_natBytes,
      Nat.mod_eq_of_lt (byteswapW_lt w v hv), byteswapW_inv w v hw hv]

/-- C2: for every fixed-width primitive bit pattern (1/2/4/8 bytes), every
wire byte order `e`, and both native endiannesses, storing the value into
memory with `set_primitive` and reading it back from the same address with
`get_primitive` of the same type and byte order returns exactly the
original value, on the `std::bit_cast` path and on the `std::memcpy` +
`byteswap` fallback path alike, and the byte-swap fallback itself is an
involution.  (Signed integers are handled by the source through
`to_unsigned`, a bijection on bit patterns, so `Nat` patterns below cover
them bit-for-bit.) -/
theorem c2_primitive_roundtrip (native e : Endian) (m : Mem) (p w v : Nat)
    (hw : w = 1 ∨ w = 2 ∨ w = 4 ∨ w = 8) (hv : v < 2 ^ (8 * w)) :
    readPrim native e (writePrim native e m p w v) p w = v
    ∧ get_primitive_swap native e w
        (readBytesAt (writeBytesAt m p (set_primitive_swap native e w v)) p w) = v
    ∧ byteswapW w (byteswapW w v) = v := by
  have hlen : (set_primitive native e w v).length = w := by
    unfold set_primitive
    by_cases h : e = native ∨ w = 1
    · rw [if_pos h, natBytes_length]
    · rw [if_neg h, List.length_reverse, natBytes_length]
  have hbl : ∀ b ∈ set_primitive native e w v, b < 256 := by
    unfold set_primitive
    by_cases h : e = native ∨ w = 1
    · rw [if_pos h]
      exact natBytes_lt native w v
    · rw [if_neg h]
      intro b hb
      exact natBytes_lt native w v b (List.mem_reverse.mp hb)
  have hlen2 : (set_primitive_swap native e w v).length = w := by
    unfold set_primitive_swap
    by_cases h : e ≠ native ∧ w ≠ 1
    · rw [if_pos h, natBytes_length]
    · rw [if_neg h, natBytes_length]
  have hbl2 : ∀ b ∈ set_primitive_swap native e w v, b < 256 := by
    unfold set_primitive_swap
    by_cases h : e ≠ native ∧ w ≠ 1
    · rw [if_pos h]
      exact natBytes_lt native w _
    · rw [if_neg h]
      exact natBytes_lt native w v
  refine ⟨?_, ?_, byteswapW_inv w v hw hv⟩
  · unfold readPrim writePrim
    rw [readBytesAt_writeBytesAt_len _ _ _ _ hlen hbl]
    exact get_set_primitive native e w v hv
  · rw [readBytesAt_writeBytesAt_len _ _ _ _ hlen2 hbl2]
    exact get_set_primitive_swap native e w v hw hv

/-- Witness for C2 at a concrete input: width 2, value `0x1234`, big wire
order on a little-endian host, memory initially zero, address 5. -/
theorem c2_primitive_roundtrip_witness :
    ((2 : Nat) = 1 ∨ (2 : Nat) = 2 ∨ (2 : Nat) = 4 ∨ (2 : Nat) = 8)
    ∧ (0x1234 : Nat) < 2 ^ (8 * 2)
    ∧ readPrim .little .big (writePrim .little .big (fun _ => 0) 5 2 0x1234) 5 2
        = 0x1234 :=
  ⟨by norm_num, by norm_num,
    (c2_primitive_roundtrip .little .big (fun _ => 0) 5 2 0x1234
      (by norm_num) (by norm_num)).1⟩

/-! Scalar optional wrappers (`detail::optional_base`, sbepp.hpp:3372-3504).
The underlying value type `T` is modelled as `Int` (covering the signed,
unsigned and char instantiations); `Derived::null_value()` is an explicit
parameter. -/

/-- `optional_base::has_value()` (sbepp.hpp:3430-3433):
`val != Derived::null_value()`. -/
def optional_has_value (nullv val : Int) : Bool :=
  val != nullv

/-- `operator==(optional_base, optional_base)` (sbepp.hpp:3447-3451):
compares the raw stored values. -/
def optional_eq (a b : Int) : Bool :=
  a == b

/-- `operator!=` (sbepp.hpp:3470-3474). -/
def optional_ne (a b : Int) : Bool :=
  a != b

/-- `operator<` (sbepp.hpp:3476-3480): `rhs && (!lhs || (*lhs < *rhs))`. -/
def optional_lt (nullv a b : Int) : Bool :=
  optional_has_value nullv b && (!optional_has_value nullv a || decide (a < b))

/-- `operator<=` (sbepp.hpp:3482-3486): `!lhs || (rhs && (*lhs <= *rhs))`. -/
def optional_le (nullv a b : Int) : Bool :=
  !optional_has_value nullv a || (optional_has_value nullv b && decide (a ≤ b))

/-- `operator>` (sbepp.hpp:3488-3492): `lhs && (!rhs || (*lhs > *rhs))`. -/
def optional_gt (nullv a b : Int) : Bool :=
  optional_has_value nullv a && (!optional_has_value nullv b || decide (a > b))

/-- `operator>=` (sbepp.hpp:3494-3498): `!rhs || (lhs && (*lhs >= *rhs))`. -/
def optional_ge (nullv a b : Int) : Bool :=
  !optional_has_value nullv b || (optional_has_value nullv a && decide (a ≥ b))

/-- `operator<=>` (sbepp.hpp:3459-3468): contained values when both are
engaged, otherwise `has_value() <=> has_value()` (`false < true`). -/
def optional_compare (nullv a b : Int) : Ordering :=
  if optional_has_value nullv a ∧ optional_has_value nullv b then compare a b
  else compare (optional_has_value nullv a).toNat (optional_has_value nullv b).toNat

/-- C6: the optional comparison operators order a null wrapper strictly
below any engaged wrapper, make null equal exactly to null, and compare
two engaged wrappers by their contained values.  (A wrapper is engaged
iff its stored value differs from `null_value()`, so raw-value equality
at sbepp.hpp:3447-3451 realises the stated null semantics.) -/
theorem c6_optional_ordering (nullv a b : Int) :
    (a = nullv → b ≠ nullv →
      optional_lt nullv a b = true ∧ optional_le nullv a b = true
      ∧ optional_gt nullv a b = false ∧ optional_ge nullv a b = false
      ∧ optional_eq a b = false ∧ optional_compare nullv a b = .lt)
    ∧ (a = nullv → b = nullv →
      optional_eq a b = true ∧ optional_lt nullv a b = false
      ∧ optional_le nullv a b = true ∧ optional_gt nullv a b = false
      ∧ optional_ge nullv a b = true ∧ optional_compare nullv a b = .eq)
    ∧ (a ≠ nullv → b = nullv →
      optional_lt nullv a b = false ∧ optional_le nullv a b = false
      ∧ optional_gt nullv a b = true ∧ optional_ge nullv a b = true
      ∧ optional_eq a b = false ∧ optional_compare nullv a b = .gt)
    ∧ (a ≠ nullv → b ≠ nullv →
      (optional_eq a b = true ↔ a = b)
      ∧ (optional_lt nullv a b = true ↔ a < b)
      ∧ (optional_le nullv a b = true ↔ a ≤ b)
      ∧ (optional_gt nullv a b = true ↔ b < a)
      ∧ (optional_ge nullv a b = true ↔ b ≤ a)
      ∧ optional_compare nullv a b = compare a b) := by
  refine ⟨?_, ?_, ?_, ?_⟩
  · intro ha hb
    subst ha
    have hba : (b != a) = true := by simp [hb]
    have haa : (a != a) = false := by simp
    refine ⟨?_, ?_, ?_, ?_, ?_, ?_⟩ <;>
      simp [optional_lt, optional_le, optional_gt, optional_ge, optional_eq,
        optional_compare, optional_has_value, hba, haa, Ne.symm hb] <;> decide
  · intro ha hb
    subst ha
    subst hb
    refine ⟨?_, ?_, ?_, ?_, ?_, ?_⟩ <;>
      simp [optional_lt, optional_le, optional_gt, optional_ge, optional_eq,
        optional_compare, optional_has_value] <;> rfl
  · intro ha hb
    subst hb
    have hab : (a != b) = true := by simp [ha]
    have hbb : (b != b) = false := by simp
    refine ⟨?_, ?_, ?_, ?_, ?_, ?_⟩ <;>
      simp [optional_lt, optional_le, optional_gt, optional_ge, optional_eq,
        optional_compare, optional_has_value, hab, hbb, ha] <;> decide
  · intro ha hb
    have hab : (a != nullv) = true := by simp [ha]
    have hbb : (b != nullv) = true := by simp [hb]
    refine ⟨?_, ?_, ?_, ?_, ?_, ?_⟩ <;>
      simp [optional_lt, optional_le, optional_gt, optional_ge, optional_eq,
        optional_compare, optional_has_value, hab, hbb]

/-- Witness for C6 at concrete inputs: null sentinel `255`, a null wrapper
against an engaged wrapper holding `3`. -/
theorem c6_optional_ordering_witness :
    (255 : Int) = 255 ∧ (3 : Int) ≠ 255
    ∧ optional_lt 255 255 3 = true ∧ optional_eq 255 3 = false :=
  ⟨rfl, by decide,
    ((c6_optional_ordering 255 255 3).1 rfl (by decide)).1,
    ((c6_optional_ordering 255 255 3).1 rfl (by decide)).2.2.2.2.1⟩

/-! Cursor advancement policies.  A nesting level is visible to the
`*_last_value` accessors through three addresses: `addressof_tag` (the
view's own start), `get_level_tag` (the start of the level's field block)
and `get_block_length_tag` (the level's declared block length).  Each
accessor reads/writes a `w`-byte primitive and repositions the cursor;
the functions below return the pair (value read, new cursor position)
of the `get_last_value` overload of each policy, and the new cursor
position of the corresponding `set_last_value`. -/

structure LevelView where
  addr : Nat
  level : Nat
  blockLen : Nat
deriving DecidableEq, Repr

/-- `cursor::get_last_value` (sbepp.hpp:801-812), the default policy: read
at `ptr + offset`, then `ptr = view(get_level_tag) +
view(get_block_length_tag)`. -/
def cursor_get_last_value (native e : Endian) (m : Mem) (view : LevelView)
    (c offset w : Nat) : Nat × Nat :=
  (readPrim native e m (c + offset) w, view.level + view.blockLen)

/-- `cursor::set_last_value` (sbepp.hpp:814-825): cursor effect. -/
def cursor_set_last_value (view : LevelView) (c offset : Nat) : Nat :=
  view.level + view.blockLen

/-- `init_cursor_wrapper::get_last_value` (sbepp.hpp:950-965): read at
`view(addressof_tag) + absolute_offset`, then set the cursor to
`view(get_level_tag) + view(get_block_length_tag)`. -/
def init_get_last_value (native e : Endian) (m : Mem) (view : LevelView)
    (absOffset w : Nat) : Nat × Nat :=
  (readPrim native e m (view.addr + absOffset) w, view.level + view.blockLen)

/-- `init_cursor_wrapper::set_last_value` (sbepp.hpp:967-982): cursor
effect. -/
def init_set_last_value (view : LevelView) (absOffset : Nat) : Nat :=
  view.level + view.blockLen

/-- `skip_cursor_wrapper::get_last_value` (sbepp.hpp:1323-1333): no value
produced; the cursor goes to `view(get_level_tag) +
view(get_block_length_tag)`. -/
def skip_get_last_value (view : LevelView) (c offset : Nat) : Nat :=
  view.level + view.blockLen

/-- `dont_move_cursor_wrapper::get_last_value` (sbepp.hpp:1215-1224): read
at `cursor + offset`, cursor left unchanged. -/
def dont_move_get_last_value (native e : Endian) (m : Mem) (view : LevelView)
    (c offset w : Nat) : Nat × Nat :=
  (readPrim native e m (c + offset) w, c)

/-- `dont_move_cursor_wrapper::set_last_value` (sbepp.hpp:1226-1236):
cursor effect. -/
def dont_move_set_last_value (view : LevelView) (c offset : Nat) : Nat :=
  c

/-- `init_dont_move_cursor_wrapper::get_last_value` (sbepp.hpp:1094-1101,
delegating to `get_value` at 1063-1076): read at `view(addressof_tag) +
absolute_offset`, cursor set to `view(addressof_tag) + absolute_offset -
offset` (the accessed member's position, not the next level). -/
def init_dont_move_get_last_value (native e : Endian) (m : Mem)
    (view : LevelView) (offset absOffset w : Nat) : Nat × Nat :=
  (readPrim native e m (view.addr + absOffset) w, view.addr + absOffset - offset)

/-- C9 counterexample: the claim says that for *every* policy, accessing
the last member leaves the cursor at `level + blockLength`.  The
don't-move policy (by design) leaves the cursor where it was: at the
concrete view `{addr 100, level 108, blockLen 20}` with the cursor at
108, `get_last_value` leaves the cursor at 108 while the next level
starts at 128. -/
theorem c9_cursor_policy_counterexample :
    (dont_move_get_last_value .little .little (fun _ => 0)
        ⟨100, 108, 20⟩ 108 0 2).2 = 108
    ∧ (⟨100, 108, 20⟩ : LevelView).level + (⟨100, 108, 20⟩ : LevelView).blockLen = 128
    ∧ (108 : Nat) ≠ 128 := by
  refine ⟨rfl, rfl, by decide⟩

/-- C9 (amended): accessing the last declared member of a level through
the default, init, or skip policy leaves the cursor exactly at the start
of the next nesting level (`get_level_tag` address plus declared block
length), for both reads and writes; the don't-move policy leaves the
cursor unchanged, and init-don't-move sets it to the accessed member's
own position (`addressof + absolute_offset - offset`). -/
theorem c9_cursor_policy_last_member (native e : Endian) (m : Mem)
    (view : LevelView) (c offset absOffset w : Nat) :
    (cursor_get_last_value native e m view c offset w).2
        = view.level + view.blockLen
    ∧ cursor_set_last_value view c offset = view.level + view.blockLen
    ∧ (init_get_last_value native e m view absOffset w).2
        = view.level + view.blockLen
    ∧ init_set_last_value view absOffset = view.level + view.blockLen
    ∧ skip_get_last_value view c offset = view.level + view.blockLen
    ∧ (dont_move_get_last_value native e m view c offset w).2 = c
    ∧ dont_move_set_last_value view c offset = c
    ∧ (init_dont_move_get_last_value native e m view offset absOffset w).2
        = view.addr + absOffset - offset :=
  ⟨rfl, rfl, rfl, rfl, rfl, rfl, rfl, rfl⟩

/-! Bitset choice access (`detail::bitset_base`, sbepp.hpp:2549-2604).
The shift operand `1` in `operator()(get_bit_tag)` and
`operator()(set_bit_tag)` has C++ type `int` (32 bits).  `cppShl1 n`
models the C++14 value of `1 << n` for `n ≤ 31`; for `n ≥ 32` the shift
is undefined behaviour.  The `int` operand is then converted to the
bitset's unsigned underlying type by modular conversion
(`toUnsignedW`). -/

/-- Modular conversion of a C++ `int` value to `uintN_t` (`N = w`). -/
def toUnsignedW (w : Nat) (x : Int) : Nat :=
  (x % ((2 : Int) ^ w)).toNat

/-- C++14 value of `1 << n` at type `int`: `2^n` for `n < 31`, `-2^31`
for `n = 31` (the pattern `2^31` converted to `int`); undefined for
`n ≥ 32` (not modelled, the branch is never used by the theorems). -/
def cppShl1 (n : Nat) : Int :=
  if n ≤ 31 then if n = 31 then -(2 ^ 31) else 2 ^ n else 0

/-- C++ value of `b << n` for a `bool` promoted to `int`. -/
def cppShlBool (b : Bool) (n : Nat) : Int :=
  if b then cppShl1 n else 0

/-- C++ `~x` on `int` (two's complement). -/
def cppNot (x : Int) : Int :=
  -(x + 1)

/-- `bitset_base<std::uint64_t>::operator()(set_bit_tag, n, b)`
(sbepp.hpp:2579-2583): `bits = ((bits & ~(1 << n)) | (b << n))` with the
`int` operands converted to `uint64_t`. -/
def set_bit64 (bits n : Nat) (b : Bool) : Nat :=
  (bits &&& toUnsignedW 64 (cppNot (cppShl1 n))) ||| toUnsignedW 64 (cppShlBool b n)

/-- `bitset_base<std::uint64_t>::operator()(get_bit_tag, n)`
(sbepp.hpp:2573-2577): `bits & (1 << n)` converted to `bool`. -/
def get_bit64 (bits n : Nat) : Bool :=
  (bits &&& toUnsignedW 64 (cppShl1 n)) != 0

/-- C10: the claim requires `set_bit(n, b)` to leave every bit other than
`n` unchanged, for every index valid for the underlying type, including
indices 31 and above of a 64-bit bitset.  The code violates this: the
literal `1` in `1 << n` is a 32-bit `int`, so at `n = 31` the mask
sign-extends on conversion to `uint64_t`.  Setting bit 31 of an all-zero
64-bit bitset yields `0xFFFFFFFF80000000` — bits 32..63 flip too — where
the claim demands `0x80000000`; and for `n ≥ 32` the shift is undefined
behaviour outright. -/
theorem c10_bitset_high_bit_corruption :
    set_bit64 0 31 true = 0xFFFFFFFF80000000
    ∧ Nat.testBit (set_bit64 0 31 true) 32 = true
    ∧ Nat.testBit (0 : Nat) 32 = false
    ∧ Nat.testBit (0x80000000 : Nat) 32 = false
    ∧ get_bit64 (set_bit64 0 31 true) 31 = true := by
  refine ⟨by decide, by decide, by decide, by decide, by decide⟩

/-! Further byte-store lemmas used by the array-reference embeddings. -/

theorem set_primitive_length (native e : Endian) (w v : Nat) :
    (set_primitive native e w v).length = w := by
  unfold set_primitive
  by_cases h : e = native ∨ w = 1
  · rw [if_pos h]
    cases native <;> simp [natBytes, toBytesLE_length]
  · rw [if_neg h]
    cases native <;> simp [natBytes, toBytesLE_length]

theorem set_primitive_lt (native e : Endian) (w v : Nat) :
    ∀ b ∈ set_primitive native e w v, b < 256 := by
  unfold set_primitive
  by_cases h : e = native ∨ w = 1 <;>
    [rw [if_pos h]; rw [if_neg h]] <;>
    cases native <;>
    first
      | (intro b hb
         simp only [natBytes] at hb
         exact toBytesLE_lt w _ b hb)
      | (intro b hb
         simp only [natBytes, List.mem_reverse] at hb
         exact toBytesLE_lt w _ b hb)

theorem readPrim_writePrim (native e : Endian) (m : Mem) (p w n : Nat)
    (h : n < 2 ^ (8 * w)) :
    readPrim native e (writePrim native e m p w n) p w = n := by
  unfold readPrim writePrim
  rw [readBytesAt_writeBytesAt_len _ _ _ _ (set_primitive_length native e w n)
    (set_primitive_lt native e w n)]
  exact get_set_primitive native e w n h

theorem writeBytesAt_ge (bs : List Nat) (m : Mem) (p q : Nat)
    (h : p + bs.length ≤ q) : writeBytesAt m p bs q = m q := by
  induction bs generalizing m p with
  | nil => rfl
  | cons b bs ih =>
    simp only [writeBytesAt]
    rw [ih _ _ (by simp at h; omega), writeByte_ne _ _ _ _ (by simp at h; omega)]

theorem readBytesAt_congr (m1 m2 : Mem) (p w : Nat)
    (h : ∀ j, p ≤ j → j < p + w → m1 j = m2 j) :
    readBytesAt m1 p w = readBytesAt m2 p w := by
  induction w generalizing p with
  | zero => rfl
  | succ n ih =>
    simp only [readBytesAt]
    rw [h p (le_refl p) (by omega)]
    rw [ih _ (fun j hj1 hj2 => h j (by omega) (by omega))]

theorem readPrim_congr (native e : Endian) (m1 m2 : Mem) (p w : Nat)
    (h : ∀ j, p ≤ j → j < p + w → m1 j = m2 j) :
    readPrim native e m1 p w = readPrim native e m2 p w := by
  unfold readPrim
  rw [readBytesAt_congr m1 m2 p w h]

/-! Dynamic array reference (`detail::dynamic_array_ref`,
sbepp.hpp:2863-3247), over byte-sized elements with a length prefix of
`P = sizeof(size_type)` bytes in wire order `e`.  The view is the offset
pair `[beg, en)` into the byte store; `SBEPP_SIZE_CHECK(begin, end,
offset, size)` (sbepp.hpp:243-246) is `offset + size ≤ en - beg` (the
views in question always carry a non-null `begin`), and a failed check
invokes the `[[noreturn]]` assertion hook, modelled as `Except.error`
carrying the memory state at that moment.  In C++ `count` has the
unsigned type `size_type`, so theorems carry `count < 2^(8P)` where the
value matters. -/

structure DynView where
  beg : Nat
  en : Nat
deriving DecidableEq, Repr

/-- `dynamic_array_ref::size()` (sbepp.hpp:2949-2958): reads the length
prefix through `detail::get_value` (590-597), whose `SBEPP_SIZE_CHECK`
validates `sizeof(size_type)` bytes. -/
def da_size (native e : Endian) (P : Nat) (v : DynView) (m : Mem) : Except Mem Nat :=
  if P ≤ v.en - v.beg then .ok (readPrim native e m v.beg P) else .error m

/-- `dynamic_array_ref::resize(count, default_init)` (sbepp.hpp:3020-3031):
checks `sizeof(size_type) + count` against the span, then commits the new
length with `detail::set_primitive`. -/
def da_resize_default (native e : Endian) (P : Nat) (v : DynView) (m : Mem)
    (count : Nat) : Except Mem Mem :=
  if P + count ≤ v.en - v.beg then .ok (writePrim native e m v.beg P count)
  else .error m

/-- The value-initialising fill loop of `resize(count)`
(sbepp.hpp:2989-2995): `operator[](i) = {}` for the new slots. -/
def zeroFill (m : Mem) (p : Nat) : Nat → Mem
  | 0 => m
  | n + 1 => zeroFill (writeByte m p 0) (p + 1) n

/-- `dynamic_array_ref::resize(count)` (sbepp.hpp:2981-2996): read the old
size, delegate to `resize(count, default_init)`, then value-initialise the
new element slots.  The `operator[]`/`data()` assertions inside the loop
re-check facts established by the preceding size check. -/
def da_resize (native e : Endian) (P : Nat) (v : DynView) (m : Mem)
    (count : Nat) : Except Mem Mem :=
  match da_size native e P v m with
  | .error mf => .error mf
  | .ok old =>
    match da_resize_default native e P v m count with
    | .error mf => .error mf
    | .ok m1 =>
      if old < count then .ok (zeroFill m1 (v.beg + P + old) (count - old))
      else .ok m1

/-- `dynamic_array_ref::push_back` (sbepp.hpp:3037-3042):
`resize(current_size + 1, default_init)` narrows `current_size + 1` back
to the unsigned `size_type` through `resize`'s parameter — wrapping to 0
when `current_size` is `max_size()` — and then
`(*this)[current_size] = value` runs `operator[]`'s
`SBEPP_ASSERT(pos < size())` (2942-2946) against the length just
committed before storing through `data()` (whose `!empty()` assertion and
`data_checked()` span check follow from `pos < size()` and the resize
check that just passed). -/
def da_push_back (native e : Endian) (P : Nat) (v : DynView) (m : Mem)
    (val : Nat) : Except Mem Mem :=
  match da_size native e P v m with
  | .error mf => .error mf
  | .ok cur =>
    match da_resize_default native e P v m ((cur + 1) % 2 ^ (8 * P)) with
    | .error mf => .error mf
    | .ok m1 =>
      if cur < readPrim native e m1 v.beg P then
        .ok (writeByte m1 (v.beg + P + cur) val)
      else .error m1

/-- `dynamic_array_ref::pop_back` (sbepp.hpp:3048-3052):
`SBEPP_ASSERT(!empty())` (which evaluates `size()`), then shrink by one. -/
def da_pop_back (native e : Endian) (P : Nat) (v : DynView) (m : Mem) :
    Except Mem Mem :=
  match da_size native e P v m with
  | .error mf => .error mf
  | .ok cur =>
    if cur = 0 then .error m
    else da_resize_default native e P v m (cur - 1)

/-- `std::copy(pos + 1, end(), pos)` inside `erase` (sbepp.hpp:3061):
forward byte-wise copy shifting the tail left by one. -/
def shiftLeftBytes (m : Mem) (p : Nat) : Nat → Mem
  | 0 => m
  | n + 1 => shiftLeftBytes (writeByte m p (m (p + 1))) (p + 1) n

/-- `dynamic_array_ref::erase(pos)` (sbepp.hpp:3058-3064), with `pos`
given as the element index `i`.  The entry assertion
`pos >= begin() && pos < end()` evaluates `begin()`, i.e. `data_checked()`
(3201-3209), whose `SBEPP_SIZE_CHECK` validates
`sizeof(size_type) + size()` before anything is copied. -/
def da_erase (native e : Endian) (P : Nat) (v : DynView) (m : Mem) (i : Nat) :
    Except Mem Mem :=
  match da_size native e P v m with
  | .error mf => .error mf
  | .ok sz =>
    if P + sz ≤ v.en - v.beg then
      if i < sz then
        da_resize_default native e P v
          (shiftLeftBytes m (v.beg + P + i) (sz - 1 - i)) (sz - 1)
      else .error m
    else .error m

/-- `std::copy_backward(first, last, d_last)` (used inside `insert`,
sbepp.hpp:3089) over `n` bytes: copies `m (src + k)` to `dst + k` for
`k = n - 1` down to `0`, reading the running memory so that an
overlapping destination one byte above the source shifts the range
right, exactly as `copy_backward` does. -/
def copyBackwardBytes (m : Mem) (src dst : Nat) : Nat → Mem
  | 0 => m
  | n + 1 => copyBackwardBytes (writeByte m (dst + n) (m (src + n))) src dst n

/-- Outcome of an operation that can complete, die in the assertion hook,
or reach undefined behaviour: `ok`/`err` carry the final memory state
(for `err`, the state at the moment the hook fired), `ub` marks an
out-of-bounds access. -/
inductive DaResult where
  | ok (m : Mem)
  | err (m : Mem)
  | ub

/-- `dynamic_array_ref::insert(pos, value)` (sbepp.hpp:3084-3092), with
`pos` as the element index `i`: entry assertion via `begin()`
(= `data_checked()`, 3201-3209), then `resize(size() + 1, default_init)`
— whose unsigned `size_type` parameter narrows `size() + 1`, wrapping to
0 at `max_size()` — then `std::copy_backward(pos, old_end, end())` and
`*pos = value`.  With the new length `s1 = (size() + 1) mod 2^(8P)`, the
backward copy writes the `size() - i` moved bytes into the range ending
at `data() + s1`: when that range starts below the buffer (more than
`P + s1` below the element area) the copy is an out-of-bounds write,
undefined behaviour, and likewise the final store if `data() + i` is
past the buffer end; after a non-wrapping resize neither can happen and
the copy is the plain shift-right-by-one. -/
def da_insert (native e : Endian) (P : Nat) (v : DynView) (m : Mem)
    (i val : Nat) : DaResult :=
  match da_size native e P v m with
  | .error mf => .err mf
  | .ok sz =>
    if P + sz ≤ v.en - v.beg then
      if i ≤ sz then
        match da_resize_default native e P v m ((sz + 1) % 2 ^ (8 * P)) with
        | .error mf => .err mf
        | .ok m1 =>
          if sz - i ≤ P + (sz + 1) % 2 ^ (8 * P) then
            if v.beg + P + i < v.en then
              .ok (writeByte
                (copyBackwardBytes m1 (v.beg + P + i)
                  (v.beg + P + (sz + 1) % 2 ^ (8 * P) - (sz - i)) (sz - i))
                (v.beg + P + i) val)
            else .ub
          else .ub
      else .err m
    else .err m

/-- The element loop of `dynamic_array_ref::assign(first, last)`
(sbepp.hpp:3154-3168): `out` starts at `data_unchecked()` (no check), and
each iteration runs `SBEPP_SIZE_CHECK(..., 0, sizeof(size_type) + size)`
— validating only the bytes written *so far*, not the byte about to be
written — then stores the element and increments `size`; the final
`resize(size, default_init)` commits the length. -/
def da_assign_loop (native e : Endian) (P : Nat) (v : DynView) :
    Mem → Nat → List Nat → Except Mem Mem
  | m, sz, [] => da_resize_default native e P v m sz
  | m, sz, x :: xs =>
    if P + sz ≤ v.en - v.beg then
      da_assign_loop native e P v (writeByte m (v.beg + P + sz) x) (sz + 1) xs
    else .error m

/-- `dynamic_array_ref::assign(first, last)` (sbepp.hpp:3154-3168) from an
input range given as a list. -/
def da_assign (native e : Endian) (P : Nat) (v : DynView) (m : Mem)
    (xs : List Nat) : Except Mem Mem :=
  da_assign_loop native e P v m 0 xs

/-- Whether an operation ran to completion (`ok`) or died in the
assertion hook (`error`). -/
def resOk : Except Mem Mem → Bool
  | .ok _ => true
  | .error _ => false

/-- The memory state an operation left behind: the final state on
completion, or the state at the moment the assertion hook fired. -/
def resMem : Except Mem Mem → Mem
  | .ok m => m
  | .error m => m

/-! Helper lemmas about zeroFill. -/

theorem zeroFill_lt (n : Nat) (m : Mem) (p q : Nat) (h : q < p) :
    zeroFill m p n q = m q := by
  induction n generalizing m p with
  | zero => rfl
  | succ k ih =>
    simp only [zeroFill]
    rw [ih _ _ (by omega), writeByte_ne _ _ _ _ (by omega)]

theorem zeroFill_ge (n : Nat) (m : Mem) (p q : Nat) (h : p + n ≤ q) :
    zeroFill m p n q = m q := by
  induction n generalizing m p with
  | zero => rfl
  | succ k ih =>
    simp only [zeroFill]
    rw [ih _ _ (by omega), writeByte_ne _ _ _ _ (by omega)]

theorem zeroFill_val (n : Nat) (m : Mem) (p q : Nat) (h1 : p ≤ q)
    (h2 : q < p + n) : zeroFill m p n q = 0 := by
  induction n generalizing m p with
  | zero => omega
  | succ k ih =>
    simp only [zeroFill]
    by_cases hq : q = p
    · rw [zeroFill_lt _ _ _ _ (by omega), hq]
      simp [writeByte]
    · exact ih _ _ (by omega) (by omega)

/-- C3: on a sufficiently large buffer, `resize(n)` followed by `size()`
returns `n`; when growing from the current size `k` to `n > k`, the
element bytes at indices `[0, k)` are byte-for-byte unchanged and the new
elements at `[k, n)` are initialised to the element type's default value
(zero, via `operator[](i) = {}`). -/
theorem c3_dynamic_array_resize (native e : Endian) (P : Nat) (v : DynView) (m : Mem) (n : Nat)
    (hspan : P + n ≤ v.en - v.beg) (hn : n < 2 ^ (8 * P)) :
    resOk (da_resize native e P v m n) = true
    ∧ readPrim native e (resMem (da_resize native e P v m n)) v.beg P = n
    ∧ (∀ i : Nat, readPrim native e m v.beg P < n →
        i < readPrim native e m v.beg P →
        resMem (da_resize native e P v m n) (v.beg + P + i) = m (v.beg + P + i))
    ∧ (∀ i : Nat, readPrim native e m v.beg P < n →
        readPrim native e m v.beg P ≤ i → i < n →
        resMem (da_resize native e P v m n) (v.beg + P + i) = 0) := by
  have hP : P ≤ v.en - v.beg := by omega
  have hrun : da_resize native e P v m n =
      (if readPrim native e m v.beg P < n then
        .ok (zeroFill (writePrim native e m v.beg P n)
          (v.beg + P + readPrim native e m v.beg P)
          (n - readPrim native e m v.beg P))
       else .ok (writePrim native e m v.beg P n)) := by
    unfold da_resize da_size da_resize_default
    rw [if_pos hP, if_pos hspan]
  by_cases hkn : readPrim native e m v.beg P < n
  · rw [hrun, if_pos hkn]
    refine ⟨rfl, ?_, ?_, ?_⟩
    · show readPrim native e (zeroFill _ _ _) v.beg P = n
      rw [readPrim_congr native e _ (writePrim native e m v.beg P n) v.beg P
        (fun j hj1 hj2 => zeroFill_lt _ _ _ _ (by omega))]
      exact readPrim_writePrim native e m v.beg P n hn
    · intro i hkn2 hik
      show zeroFill _ _ _ (v.beg + P + i) = m (v.beg + P + i)
      rw [zeroFill_lt _ _ _ _ (by omega)]
      unfold writePrim
      rw [writeBytesAt_ge _ _ _ _ (by rw [set_primitive_length]; omega)]
    · intro i hkn2 hki hin
      show zeroFill _ _ _ (v.beg + P + i) = 0
      exact zeroFill_val _ _ _ _ (by omega) (by omega)
  · rw [hrun, if_neg hkn]
    refine ⟨rfl, ?_, ?_, ?_⟩
    · exact readPrim_writePrim native e m v.beg P n hn
    · intro i hkn2 hik
      omega
    · intro i hkn2 hki hin
      omega

/-- The assign element loop never touches bytes below the element area,
whichever way it ends. -/
theorem da_assign_loop_low (native e : Endian) (P : Nat) (v : DynView)
    (xs : List Nat) : ∀ (m : Mem) (sz j : Nat), j < v.beg + P →
    resMem (da_assign_loop native e P v m sz xs) j = m j ∨
      resOk (da_assign_loop native e P v m sz xs) = true := by
  induction xs with
  | nil =>
    intro m sz j hj
    unfold da_assign_loop da_resize_default
    by_cases h : P + sz ≤ v.en - v.beg
    · rw [if_pos h]
      right
      rfl
    · rw [if_neg h]
      left
      rfl
  | cons x xs ih =>
    intro m sz j hj
    unfold da_assign_loop
    by_cases h : P + sz ≤ v.en - v.beg
    · rw [if_pos h]
      rcases ih (writeByte m (v.beg + P + sz) x) (sz + 1) j hj with h1 | h1
      · left
        rw [h1, writeByte_ne _ _ _ _ (by omega)]
      · right
        exact h1
    · rw [if_neg h]
      left
      rfl

/-- C4 (amended): every mutating operation validates a byte span
(`sizeof(size_type)` plus an element count) before committing a new
length.  `resize` (both overloads), `pop_back` and `erase` are
failure-atomic: when the assertion hook fires, the buffer is unchanged.
`resize(count, default_init)` succeeds exactly when the resulting span
fits, and then the committed length prefix reads back as `count`.
`push_back` and `insert` are failure-atomic only below `max_size()`: at
`size() = max_size()` the incremented length wraps to zero in `resize`'s
unsigned `size_type` parameter, the wrapped span check passes and zero
is committed as the new length, after which `push_back` dies in
`operator[]`'s assertion with the buffer already mutated (the length
prefix then reads 0), and `insert`'s backward copy is an out-of-bounds
write — undefined behaviour — whenever more than `sizeof(size_type)`
element bytes have to move.  `assign(first, last)` only guarantees the
length-prefix region intact on failure: its per-element check lags one
element behind the write, so element bytes (including one byte past the
validated span) may already have been overwritten when the hook
fires. -/
theorem c4_dynamic_array_mutation (native e : Endian) (P : Nat) (v : DynView) (m : Mem)
    (count i val : Nat) (xs : List Nat) :
    (resOk (da_resize_default native e P v m count) = false →
      resMem (da_resize_default native e P v m count) = m)
    ∧ (resOk (da_resize native e P v m count) = false →
      resMem (da_resize native e P v m count) = m)
    ∧ (readPrim native e m v.beg P + 1 < 2 ^ (8 * P) →
      resOk (da_push_back native e P v m val) = false →
      resMem (da_push_back native e P v m val) = m)
    ∧ (readPrim native e m v.beg P = 2 ^ (8 * P) - 1 →
      P ≤ v.en - v.beg →
      resOk (da_push_back native e P v m val) = false
      ∧ readPrim native e (resMem (da_push_back native e P v m val))
          v.beg P = 0)
    ∧ (resOk (da_pop_back native e P v m) = false →
      resMem (da_pop_back native e P v m) = m)
    ∧ (resOk (da_erase native e P v m i) = false →
      resMem (da_erase native e P v m i) = m)
    ∧ (readPrim native e m v.beg P + 1 < 2 ^ (8 * P) →
      ∀ mf, da_insert native e P v m i val = DaResult.err mf → mf = m)
    ∧ (readPrim native e m v.beg P = 2 ^ (8 * P) - 1 →
      P + readPrim native e m v.beg P ≤ v.en - v.beg →
      i + P < readPrim native e m v.beg P →
      da_insert native e P v m i val = DaResult.ub)
    ∧ (resOk (da_resize_default native e P v m count) = true
        ↔ P + count ≤ v.en - v.beg)
    ∧ (P + count ≤ v.en - v.beg → count < 2 ^ (8 * P) →
      readPrim native e (resMem (da_resize_default native e P v m count))
        v.beg P = count)
    ∧ (resOk (da_assign native e P v m xs) = false →
      ∀ j, j < v.beg + P → resMem (da_assign native e P v m xs) j = m j) := by
  have hsz : da_size native e P v m =
      (if P ≤ v.en - v.beg then .ok (readPrim native e m v.beg P)
       else .error m) := rfl
  have hrd : ∀ (m2 : Mem) (c : Nat), da_resize_default native e P v m2 c =
      (if P + c ≤ v.en - v.beg then .ok (writePrim native e m2 v.beg P c)
       else .error m2) := fun _ _ => rfl
  refine ⟨?_, ?_, ?_, ?_, ?_, ?_, ?_, ?_, ?_, ?_, ?_⟩
  · rw [hrd]
    by_cases h : P + count ≤ v.en - v.beg
    · rw [if_pos h]
      intro hc
      cases hc
    · rw [if_neg h]
      intro _
      rfl
  · unfold da_resize
    rw [hsz]
    by_cases hP : P ≤ v.en - v.beg
    · rw [if_pos hP]
      simp only
      rw [hrd]
      by_cases h : P + count ≤ v.en - v.beg
      · rw [if_pos h]
        simp only
        by_cases hlt : readPrim native e m v.beg P < count
        · rw [if_pos hlt]
          intro hc
          cases hc
        · rw [if_neg hlt]
          intro hc
          cases hc
      · rw [if_neg h]
        intro _
        rfl
    · rw [if_neg hP]
      intro _
      rfl
  · intro hno
    unfold da_push_back
    rw [hsz]
    by_cases hP : P ≤ v.en - v.beg
    · rw [if_pos hP]
      simp only
      rw [hrd, Nat.mod_eq_of_lt hno]
      by_cases h : P + (readPrim native e m v.beg P + 1) ≤ v.en - v.beg
      · rw [if_pos h]
        simp only
        rw [readPrim_writePrim native e m v.beg P _ hno,
          if_pos (Nat.lt_succ_self _)]
        intro hc
        cases hc
      · rw [if_neg h]
        intro _
        rfl
    · rw [if_neg hP]
      intro _
      rfl
  · intro hmax hP
    have hpow : 0 < 2 ^ (8 * P) := by positivity
    have hmod : (readPrim native e m v.beg P + 1) % 2 ^ (8 * P) = 0 := by
      rw [hmax, Nat.sub_add_cancel hpow]
      exact Nat.mod_self _
    unfold da_push_back
    rw [hsz, if_pos hP]
    simp only
    rw [hrd, hmod, if_pos (by omega : P + 0 ≤ v.en - v.beg)]
    simp only
    rw [readPrim_writePrim native e m v.beg P 0 hpow,
      if_neg (Nat.not_lt_zero _)]
    exact ⟨rfl, readPrim_writePrim native e m v.beg P 0 hpow⟩
  · unfold da_pop_back
    rw [hsz]
    by_cases hP : P ≤ v.en - v.beg
    · rw [if_pos hP]
      simp only
      by_cases h0 : readPrim native e m v.beg P = 0
      · rw [if_pos h0]
        intro _
        rfl
      · rw [if_neg h0, hrd]
        by_cases h : P + (readPrim native e m v.beg P - 1) ≤ v.en - v.beg
        · rw [if_pos h]
          intro hc
          cases hc
        · rw [if_neg h]
          intro _
          rfl
    · rw [if_neg hP]
      intro _
      rfl
  · unfold da_erase
    rw [hsz]
    by_cases hP : P ≤ v.en - v.beg
    · rw [if_pos hP]
      simp only
      by_cases hchk : P + readPrim native e m v.beg P ≤ v.en - v.beg
      · rw [if_pos hchk]
        by_cases hi : i < readPrim native e m v.beg P
        · rw [if_pos hi, hrd, if_pos (by omega)]
          intro hc
          cases hc
        · rw [if_neg hi]
          intro _
          rfl
      · rw [if_neg hchk]
        intro _
        rfl
    · rw [if_neg hP]
      intro _
      rfl
  · intro hno mf
    unfold da_insert
    rw [hsz]
    by_cases hP : P ≤ v.en - v.beg
    · rw [if_pos hP]
      simp only
      by_cases hchk : P + readPrim native e m v.beg P ≤ v.en - v.beg
      · rw [if_pos hchk]
        by_cases hi : i ≤ readPrim native e m v.beg P
        · rw [if_pos hi, hrd, Nat.mod_eq_of_lt hno]
          by_cases h : P + (readPrim native e m v.beg P + 1) ≤ v.en - v.beg
          · rw [if_pos h]
            simp only
            rw [if_pos (by omega :
                readPrim native e m v.beg P - i
                  ≤ P + (readPrim native e m v.beg P + 1)),
              if_pos (by omega : v.beg + P + i < v.en)]
            intro hc
            exact DaResult.noConfusion hc
          · rw [if_neg h]
            intro hc
            exact DaResult.noConfusion hc (fun h1 => h1.symm)
        · rw [if_neg hi]
          intro hc
          exact DaResult.noConfusion hc (fun h1 => h1.symm)
      · rw [if_neg hchk]
        intro hc
        exact DaResult.noConfusion hc (fun h1 => h1.symm)
    · rw [if_neg hP]
      intro hc
      exact DaResult.noConfusion hc (fun h1 => h1.symm)
  · intro hmax hchk hi
    have hpow : 0 < 2 ^ (8 * P) := by positivity
    have hmod : (readPrim native e m v.beg P + 1) % 2 ^ (8 * P) = 0 := by
      rw [hmax, Nat.sub_add_cancel hpow]
      exact Nat.mod_self _
    unfold da_insert
    rw [hsz, if_pos (by omega : P ≤ v.en - v.beg)]
    simp only
    rw [if_pos hchk, if_pos (by omega : i ≤ readPrim native e m v.beg P),
      hrd, hmod, if_pos (by omega : P + 0 ≤ v.en - v.beg)]
    simp only
    rw [if_neg (by omega : ¬ readPrim native e m v.beg P - i ≤ P + 0)]
  · rw [hrd]
    by_cases h : P + count ≤ v.en - v.beg
    · rw [if_pos h]
      simp [resOk, h]
    · rw [if_neg h]
      simp [resOk, h]
  · intro h hcount
    rw [hrd, if_pos h]
    exact readPrim_writePrim native e m v.beg P count hcount
  · intro hfail j hj
    rcases da_assign_loop_low native e P v xs m 0 j hj with h1 | h1
    · exact h1
    · unfold da_assign at hfail
      rw [h1] at hfail
      cases hfail

/-- C4 counterexample: `assign` violates the claim as stated.  On a
one-byte-prefix array spanning `[0, 3)` (capacity two elements) holding
`[10, 11]`, assigning the three-element range `[1, 2, 3]` fails its final
length check — the assertion hook fires and the length prefix still reads
2 — yet the element bytes at addresses 1 and 2 have been overwritten
(visible mutation under the committed length), and address 3, one byte
past the buffer span, was overwritten too: the loop's incremental
`SBEPP_SIZE_CHECK` validates only the bytes written so far, so the write
of element `i` is guarded by a check of `sizeof(size_type) + i` rather
than `sizeof(size_type) + i + 1`. -/
theorem c4_dynamic_array_mutation_counterexample :
    resOk (da_assign .little .little 1 ⟨0, 3⟩
      (fun idx => if idx = 0 then 2 else if idx = 1 then 10
        else if idx = 2 then 11 else 99) [1, 2, 3]) = false
    ∧ resMem (da_assign .little .little 1 ⟨0, 3⟩
        (fun idx => if idx = 0 then 2 else if idx = 1 then 10
          else if idx = 2 then 11 else 99) [1, 2, 3]) 1 = 1
    ∧ (if (1 : Nat) = 0 then (2 : Nat) else if (1 : Nat) = 1 then 10
        else if (1 : Nat) = 2 then 11 else 99) = 10
    ∧ resMem (da_assign .little .little 1 ⟨0, 3⟩
        (fun idx => if idx = 0 then 2 else if idx = 1 then 10
          else if idx = 2 then 11 else 99) [1, 2, 3]) 0 = 2
    ∧ resMem (da_assign .little .little 1 ⟨0, 3⟩
        (fun idx => if idx = 0 then 2 else if idx = 1 then 10
          else if idx = 2 then 11 else 99) [1, 2, 3]) 3 = 3 := by
  refine ⟨by decide, by decide, by decide, by decide, by decide⟩

/-- Witness for C3 at a concrete input: one-byte prefix, span `[0, 10)`,
old size 2 with elements `[7, 8]`, resized to 4. -/
theorem c3_dynamic_array_resize_witness :
    (1 + 4 ≤ 10 - 0) ∧ (4 < 2 ^ (8 * 1))
    ∧ resOk (da_resize .little .little 1 ⟨0, 10⟩
        (fun idx => if idx = 0 then 2 else if idx = 1 then 7
          else if idx = 2 then 8 else 9) 4) = true
    ∧ readPrim .little .little (resMem (da_resize .little .little 1 ⟨0, 10⟩
        (fun idx => if idx = 0 then 2 else if idx = 1 then 7
          else if idx = 2 then 8 else 9) 4)) 0 1 = 4
    ∧ resMem (da_resize .little .little 1 ⟨0, 10⟩
        (fun idx => if idx = 0 then 2 else if idx = 1 then 7
          else if idx = 2 then 8 else 9) 4) 2 = 8
    ∧ resMem (da_resize .little .little 1 ⟨0, 10⟩
        (fun idx => if idx = 0 then 2 else if idx = 1 then 7
          else if idx = 2 then 8 else 9) 4) 4 = 0 := by
  have h := c3_dynamic_array_resize .little .little 1 ⟨0, 10⟩
    (fun idx => if idx = 0 then 2 else if idx = 1 then 7
      else if idx = 2 then 8 else 9) 4 (by norm_num) (by norm_num)
  refine ⟨by norm_num, by norm_num, h.1, h.2.1, ?_, ?_⟩
  · have h2 := h.2.2.1 1 (by decide) (by decide)
    simpa using h2
  · have h3 := h.2.2.2 3 (by decide) (by decide) (by decide)
    simpa using h3

/-- Witness for C4 at concrete inputs: a failing
`resize(count, default_init)` leaves the buffer untouched; a successful
one commits the length it validated; on a one-byte-prefix array holding
its maximal length 255, `push_back` wraps the length to 0, commits it,
and dies in the element-access assertion with the mutation visible,
while `insert` at index 0 runs into the out-of-bounds backward copy. -/
theorem c4_dynamic_array_mutation_witness :
    resOk (da_resize_default .little .little 1 ⟨0, 3⟩ (fun _ => 0) 100) = false
    ∧ resMem (da_resize_default .little .little 1 ⟨0, 3⟩ (fun _ => 0) 100)
        = (fun _ => 0)
    ∧ (resOk (da_resize_default .little .little 1 ⟨0, 3⟩ (fun _ => 0) 2) = true
        ↔ 1 + 2 ≤ 3 - 0)
    ∧ readPrim .little .little
        (resMem (da_resize_default .little .little 1 ⟨0, 3⟩ (fun _ => 0) 2))
        0 1 = 2
    ∧ (resOk (da_push_back .little .little 1 ⟨0, 2⟩ (fun _ => 255) 7) = false
        ∧ readPrim .little .little
            (resMem (da_push_back .little .little 1 ⟨0, 2⟩ (fun _ => 255) 7))
            0 1 = 0)
    ∧ da_insert .little .little 1 ⟨0, 256⟩ (fun _ => 255) 0 7
        = DaResult.ub := by
  refine ⟨by decide, ?_, ?_, ?_, ?_, ?_⟩
  · exact (c4_dynamic_array_mutation .little .little 1 ⟨0, 3⟩ (fun _ => 0)
      100 0 0 []).1 (by decide)
  · exact (c4_dynamic_array_mutation .little .little 1 ⟨0, 3⟩ (fun _ => 0)
      2 0 0 []).2.2.2.2.2.2.2.2.1
  · exact (c4_dynamic_array_mutation .little .little 1 ⟨0, 3⟩ (fun _ => 0)
      2 0 0 []).2.2.2.2.2.2.2.2.2.1 (by norm_num) (by norm_num)
  · exact (c4_dynamic_array_mutation .little .little 1 ⟨0, 2⟩ (fun _ => 255)
      0 0 7 []).2.2.2.1 (by decide) (by decide)
  · exact (c4_dynamic_array_mutation .little .little 1 ⟨0, 256⟩ (fun _ => 255)
      0 0 7 []).2.2.2.2.2.2.2.1 (by decide) (by decide) (by decide)

/-! Flat group (`detail::flat_group_base`, sbepp.hpp:2091-2323). -/

structure GroupView where
  beg : Nat
  en : Nat
deriving DecidableEq, Repr

/-- Modelled from the spec: the generated group dimension composite
(`groupSizeEncoding`) produced by the schema compiler, which is not part
of `src/`.  Per the spec's Dimension Header data model it is a composite
holding `blockLength` and `numInGroup`; the standard encoding is
`blockLength : uint16` at offset 0 and `numInGroup : uint16` at offset 2,
with a fixed `size_bytes()` of 4.  Field access goes through
`detail::get_value` (sbepp.hpp:590-597), i.e. `get_primitive` at the
field's offset. -/
def dim_size_bytes : Nat := 4

def dim_blockLength (native e : Endian) (m : Mem) (g : GroupView) : Nat :=
  readPrim native e m g.beg 2

def dim_numInGroup (native e : Endian) (m : Mem) (g : GroupView) : Nat :=
  readPrim native e m (g.beg + 2) 2

/-- Outcome of `flat_group_base::operator()(size_bytes_tag)`: a byte
count, a death in the assertion hook (carrying the memory state at that
moment), or undefined behaviour. -/
inductive SizeBytesResult where
  | ok (n : Nat)
  | err (m : Mem)
  | ub

/-- `flat_group_base::operator()(size_bytes_tag)` (sbepp.hpp:2131-2137):
`size_bytes(dimension) + dimension.numInGroup().value() *
dimension.blockLength().value()`, where obtaining the header (2120-2129)
first `SBEPP_SIZE_CHECK`s that the dimension composite fits in the view.
Both `value()`s are `std::uint16_t`, so the multiplication is performed
after integral promotion to 32-bit `int`: a product of `2^31` or more
overflows `int`, which is undefined behaviour. -/
def flat_group_size_bytes (native e : Endian) (m : Mem) (g : GroupView) :
    SizeBytesResult :=
  if dim_size_bytes ≤ g.en - g.beg then
    if dim_numInGroup native e m g * dim_blockLength native e m g < 2 ^ 31 then
      .ok (dim_size_bytes
        + dim_numInGroup native e m g * dim_blockLength native e m g)
    else .ub
  else .err m

/-- C7 (amended): for every flat group view whose dimension header fits
in the buffer and whose `numInGroup * blockLength` product stays below
`2^31`, `size_bytes()` equals the dimension header's size plus
`numInGroup * blockLength`, and it is independent of the entries'
content: writing `blockLength = bl` and `numInGroup = n` into the header
of an arbitrary buffer (whose remaining bytes — the entry contents — are
unconstrained) yields `4 + n * bl`, and any two buffers agreeing on the
four header bytes yield identical results.  For products of `2^31` or
more the int-promoted `uint16` multiplication overflows `int` — see the
counterexample. -/
theorem c7_flat_group_size_bytes (native e : Endian) (m m1 m2 : Mem) (g : GroupView)
    (bl n : Nat) (hdim : 4 ≤ g.en - g.beg) (hbl : bl < 65536) (hn : n < 65536)
    (hprod : n * bl < 2 ^ 31)
    (hagree : ∀ i, i < 4 → m1 (g.beg + i) = m2 (g.beg + i)) :
    flat_group_size_bytes native e
      (writePrim native e (writePrim native e m g.beg 2 bl) (g.beg + 2) 2 n) g
      = .ok (4 + n * bl)
    ∧ flat_group_size_bytes native e m1 g = flat_group_size_bytes native e m2 g := by
  have hdim2 : dim_size_bytes ≤ g.en - g.beg := by
    unfold dim_size_bytes
    omega
  constructor
  · unfold flat_group_size_bytes
    rw [if_pos hdim2]
    unfold dim_numInGroup dim_blockLength
    have h1 : readPrim native e
        (writePrim native e (writePrim native e m g.beg 2 bl) (g.beg + 2) 2 n)
        (g.beg + 2) 2 = n :=
      readPrim_writePrim native e _ (g.beg + 2) 2 n (by norm_num; omega)
    have h2 : readPrim native e
        (writePrim native e (writePrim native e m g.beg 2 bl) (g.beg + 2) 2 n)
        g.beg 2 = bl := by
      have hc : readPrim native e
          (writePrim native e (writePrim native e m g.beg 2 bl) (g.beg + 2) 2 n)
          g.beg 2 = readPrim native e (writePrim native e m g.beg 2 bl) g.beg 2 := by
        apply readPrim_congr
        intro j hj1 hj2
        unfold writePrim
        exact writeBytesAt_lt _ _ _ _ (by omega)
      rw [hc]
      exact readPrim_writePrim native e m g.beg 2 bl (by norm_num; omega)
    rw [h1, h2, if_pos hprod]
    unfold dim_size_bytes
    rfl
  · unfold flat_group_size_bytes
    rw [if_pos hdim2, if_pos hdim2]
    unfold dim_numInGroup dim_blockLength
    rw [readPrim_congr native e m1 m2 g.beg 2
      (fun j hj1 hj2 => by
        have := hagree (j - g.beg) (by omega)
        rw [show g.beg + (j - g.beg) = j from by omega] at this
        exact this)]
    rw [readPrim_congr native e m1 m2 (g.beg + 2) 2
      (fun j hj1 hj2 => by
        have := hagree (j - g.beg) (by omega)
        rw [show g.beg + (j - g.beg) = j from by omega] at this
        exact this)]

/-- C7 counterexample: the original universally quantified claim fails.
Over a buffer whose bytes all read 255, a 4-byte view decodes
`blockLength = 65535` and `numInGroup = 65535`; the dimension header
fits, but `size_bytes()` does not return `4 + numInGroup * blockLength`:
the int-promoted `uint16` multiplication `65535 * 65535 = 4294836225`
is at least `2^31`, so it overflows `int` — undefined behaviour. -/
theorem c7_flat_group_size_bytes_counterexample :
    dim_size_bytes ≤ 4 - 0
    ∧ dim_blockLength Endian.little Endian.little (fun _ => 255) ⟨0, 4⟩ = 65535
    ∧ dim_numInGroup Endian.little Endian.little (fun _ => 255) ⟨0, 4⟩ = 65535
    ∧ 2 ^ 31 ≤ 65535 * 65535
    ∧ flat_group_size_bytes Endian.little Endian.little (fun _ => 255) ⟨0, 4⟩
        = SizeBytesResult.ub := by
  refine ⟨by decide, by decide, by decide, by decide, rfl⟩

/-- Witness for C7 at a concrete input: header `blockLength = 2`,
`numInGroup = 3` written into a zeroed 20-byte buffer. -/
theorem c7_flat_group_size_bytes_witness :
    (4 ≤ 20 - 0) ∧ (2 < 65536) ∧ (3 < 65536) ∧ (3 * 2 < 2 ^ 31)
    ∧ flat_group_size_bytes .little .little
        (writePrim .little .little
          (writePrim .little .little (fun _ => 0) 0 2 2) (0 + 2) 2 3)
        ⟨0, 20⟩ = .ok (4 + 3 * 2) :=
  ⟨by norm_num, by norm_num, by norm_num, by norm_num,
    (c7_flat_group_size_bytes .little .little (fun _ => 0) (fun _ => 0)
      (fun _ => 0) ⟨0, 20⟩ 2 3 (by norm_num) (by norm_num) (by norm_num)
      (by norm_num) (fun _ _ => rfl)).1⟩

/-! Parsed structural model of an encoded message, used by the generic
visitor and the forward iterator.  The visitor protocol driver
(`sbepp::visit` / `visit_children`, sbepp.hpp:4334-4388) dispatches
through structural callbacks that generated message/entry types provide;
that generated code is not under `src/`, so the structure and the
declaration-order dispatch (fields, then groups, then data) are modelled
from the spec (sections 4.8 and 6), while the traversal/validation logic
itself is translated from `sbepp.hpp`. -/

/-- Modelled from the spec: a trailing `<data>` member as the size
machinery sees it — `lenSize` is `sizeof(length_type)` of its length
prefix and `len` its stored element count, matching
`dynamic_array_ref::operator()(size_bytes_tag)` (sbepp.hpp:3194-3198),
which returns `sizeof(size_type) + size()`. -/
structure DataEnc where
  lenSize : Nat
  len : Nat
deriving DecidableEq, Repr

mutual
/-- Modelled from the spec: a group as parsed from a buffer —
`headerSize` is the dimension composite's fixed size, `blockLength` the
wire value of its `blockLength` field, and `entries` the `numInGroup`
parsed entries (`numInGroup` is their count). -/
inductive GroupEnc where
  | mk (headerSize blockLength : Nat) (entries : List EntryEnc)
/-- Modelled from the spec: one group entry, holding its nested groups
and trailing data members in declaration order; its fixed block occupies
the enclosing group's `blockLength` bytes. -/
inductive EntryEnc where
  | mk (groups : List GroupEnc) (datas : List DataEnc)
end

def GroupEnc.headerSize : GroupEnc → Nat
  | .mk hs _ _ => hs

def GroupEnc.blockLength : GroupEnc → Nat
  | .mk _ bl _ => bl

def GroupEnc.entries : GroupEnc → List EntryEnc
  | .mk _ _ es => es

def EntryEnc.groups : EntryEnc → List GroupEnc
  | .mk gs _ => gs

def EntryEnc.datas : EntryEnc → List DataEnc
  | .mk _ ds => ds

/-- Modelled from the spec: a message as parsed from a buffer — a header
composite of fixed size `headerSize` whose `blockLength` field demarcates
the fixed field block, then groups, then data members. -/
structure MsgEnc where
  headerSize : Nat
  blockLength : Nat
  groups : List GroupEnc
  datas : List DataEnc

/-- `size_bytes` of a data member: `sizeof(size_type) + size()`
(sbepp.hpp:3194-3198). -/
def dataSizeBytes (d : DataEnc) : Nat := d.lenSize + d.len

def datasSizeBytes : List DataEnc → Nat
  | [] => 0
  | d :: ds => dataSizeBytes d + datasSizeBytes ds

mutual
/-- `nested_group_base::operator()(size_bytes_tag)` (sbepp.hpp:2366-2375):
dimension-header size plus the sum of the entries' true sizes. -/
def groupSizeBytes : GroupEnc → Nat
  | .mk hs bl es => hs + entriesSizeBytes bl es
def entriesSizeBytes (bl : Nat) : List EntryEnc → Nat
  | [] => 0
  | e :: es => entrySizeBytes bl e + entriesSizeBytes bl es
/-- True encoded size of an entry: the enclosing group's `blockLength`
plus its nested groups and data members (generated
`operator()(size_bytes_tag)` of entry types; modelled from the spec). -/
def entrySizeBytes (bl : Nat) : EntryEnc → Nat
  | .mk gs ds => bl + groupsSizeBytes gs + datasSizeBytes ds
def groupsSizeBytes : List GroupEnc → Nat
  | [] => 0
  | g :: gs => groupSizeBytes g + groupsSizeBytes gs
end

/-- True encoded size of a message: header, fixed block, groups, data
(generated message `size_bytes`; modelled from the spec). -/
def msgSizeBytes (msg : MsgEnc) : Nat :=
  msg.headerSize + msg.blockLength + groupsSizeBytes msg.groups
    + datasSizeBytes msg.datas

/-- State of `detail::size_bytes_checked_visitor` (sbepp.hpp:4480-4484):
the remaining budget `size`, the `valid` flag, and `gbl`, the current
group's block length (`group_block_length`). -/
structure SBCState where
  size : Nat
  valid : Bool
  gbl : Nat
deriving DecidableEq, Repr

/-- `size_bytes_checked_visitor::validate_and_subtract`
(sbepp.hpp:4486-4499): subtract `n` from the budget, or flag invalidity;
returns the updated state and the value of `valid` it returned. -/
def validate_and_subtract (st : SBCState) (n : Nat) : SBCState × Bool :=
  if st.size < n then ({ st with valid := false }, false)
  else ({ st with size := st.size - n }, st.valid)

/-- `size_bytes_checked_visitor::on_data` (sbepp.hpp:4448-4452):
`return !validate_and_subtract(size_bytes(d))`; the `Bool` is the stop
flag. -/
def sbcOnData (d : DataEnc) (st : SBCState) : SBCState × Bool :=
  let r := validate_and_subtract st (dataSizeBytes d)
  (r.1, !r.2)

/-- Dispatch of `on_data` over a level's data members in declaration
order, stopping on the first `true` (generated `visit_children`;
modelled from the spec). -/
def sbcDatas : List DataEnc → SBCState → SBCState × Bool
  | [], st => (st, false)
  | d :: ds, st =>
    let r := sbcOnData d st
    if r.2 then (r.1, true) else sbcDatas ds r.1

mutual
/-- `size_bytes_checked_visitor::on_group` (sbepp.hpp:4419-4435):
subtract the dimension-header size, save `group_block_length`, set it to
this group's `blockLength`, visit the entries, restore it, and stop when
invalid. -/
def sbcOnGroup : GroupEnc → SBCState → SBCState × Bool
  | .mk hs bl es, st =>
    let r := validate_and_subtract st hs
    if !r.2 then (r.1, true)
    else
      let prev := r.1.gbl
      let st2 : SBCState := { r.1 with gbl := bl }
      let st3 := sbcEntries es st2
      let st4 : SBCState := { st3 with gbl := prev }
      (st4, !st4.valid)
/-- The entry loop of `operator()(visit_children_tag)` of group bases
(sbepp.hpp:2310-2322, 2532-2544): call `on_entry` per entry, stopping on
`true`. -/
def sbcEntries : List EntryEnc → SBCState → SBCState
  | [], st => st
  | e :: es, st =>
    let r := sbcOnEntry e st
    if r.2 then r.1 else sbcEntries es r.1
/-- `size_bytes_checked_visitor::on_entry` (sbepp.hpp:4437-4446):
subtract the enclosing group's `group_block_length`, then visit the
entry's children (groups then data, in declaration order) and stop when
invalid. -/
def sbcOnEntry : EntryEnc → SBCState → SBCState × Bool
  | .mk gs ds, st =>
    let r := validate_and_subtract st st.gbl
    if !r.2 then (r.1, true)
    else
      let r2 := sbcGroups gs r.1
      let st3 := if r2.2 then r2.1 else (sbcDatas ds r2.1).1
      (st3, !st3.valid)
/-- Dispatch of `on_group` over a level's groups in declaration order,
stopping on the first `true` (generated `visit_children`; modelled from
the spec). -/
def sbcGroups : List GroupEnc → SBCState → SBCState × Bool
  | [], st => (st, false)
  | g :: gs, st =>
    let r := sbcOnGroup g st
    if r.2 then (r.1, true) else sbcGroups gs r.1
end

/-- `size_bytes_checked_visitor::on_message` (sbepp.hpp:4401-4417):
subtract the header size and the header's `blockLength`, then visit the
children (groups then data). -/
def sbcOnMessage (msg : MsgEnc) (st : SBCState) : SBCState :=
  let r := validate_and_subtract st msg.headerSize
  if !r.2 then r.1
  else
    let r2 := validate_and_subtract r.1 msg.blockLength
    if !r2.2 then r2.1
    else
      let r3 := sbcGroups msg.groups r2.1
      if r3.2 then r3.1 else (sbcDatas msg.datas r3.1).1

/-- `sbepp::size_bytes_checked_result` (sbepp.hpp:4503-4510); the
zero-initialised `{}` return is `⟨false, 0⟩`. -/
structure SizeBytesCheckedResult where
  valid : Bool
  size : Nat
deriving DecidableEq, Repr

/-- `sbepp::size_bytes_checked` on a message view (sbepp.hpp:4523-4541):
fail fast if even the header cannot fit, then run the visitor with the
budget `size` and return the bytes consumed. -/
def size_bytes_checked_msg (msg : MsgEnc) (size : Nat) : SizeBytesCheckedResult :=
  if size < msg.headerSize then ⟨false, 0⟩
  else
    let st := sbcOnMessage msg ⟨size, true, 0⟩
    if st.valid then ⟨true, size - st.size⟩ else ⟨false, 0⟩

/-- `sbepp::size_bytes_checked` on a group view: the header-size guard
uses the dimension composite, and `visit` enters through `on_group`. -/
def size_bytes_checked_group (g : GroupEnc) (size : Nat) : SizeBytesCheckedResult :=
  if size < g.headerSize then ⟨false, 0⟩
  else
    let st := (sbcOnGroup g ⟨size, true, 0⟩).1
    if st.valid then ⟨true, size - st.size⟩ else ⟨false, 0⟩



/-- Correctness property of `on_group`: from a valid state it consumes
exactly `groupSizeBytes` when the budget suffices (restoring
`group_block_length`), and otherwise ends invalid and stopped. -/
def PGroup (g : GroupEnc) : Prop :=
  ∀ st : SBCState, st.valid = true →
    (groupSizeBytes g ≤ st.size →
      sbcOnGroup g st = ({ st with size := st.size - groupSizeBytes g }, false))
    ∧ (st.size < groupSizeBytes g →
      (sbcOnGroup g st).1.valid = false ∧ (sbcOnGroup g st).2 = true)

def PEntries (es : List EntryEnc) : Prop :=
  ∀ st : SBCState, st.valid = true →
    (entriesSizeBytes st.gbl es ≤ st.size →
      sbcEntries es st = { st with size := st.size - entriesSizeBytes st.gbl es })
    ∧ (st.size < entriesSizeBytes st.gbl es → (sbcEntries es st).valid = false)

def PEntry (e : EntryEnc) : Prop :=
  ∀ st : SBCState, st.valid = true →
    (entrySizeBytes st.gbl e ≤ st.size →
      sbcOnEntry e st = ({ st with size := st.size - entrySizeBytes st.gbl e }, false))
    ∧ (st.size < entrySizeBytes st.gbl e →
      (sbcOnEntry e st).1.valid = false ∧ (sbcOnEntry e st).2 = true)

def PGroups (gs : List GroupEnc) : Prop :=
  ∀ st : SBCState, st.valid = true →
    (groupsSizeBytes gs ≤ st.size →
      sbcGroups gs st = ({ st with size := st.size - groupsSizeBytes gs }, false))
    ∧ (st.size < groupsSizeBytes gs →
      (sbcGroups gs st).1.valid = false ∧ (sbcGroups gs st).2 = true)

theorem sbcDatas_spec (ds : List DataEnc) : ∀ st : SBCState, st.valid = true →
    (datasSizeBytes ds ≤ st.size →
      sbcDatas ds st = ({ st with size := st.size - datasSizeBytes ds }, false))
    ∧ (st.size < datasSizeBytes ds →
      (sbcDatas ds st).1.valid = false ∧ (sbcDatas ds st).2 = true) := by
  induction ds with
  | nil =>
    rintro ⟨sz, val, gb⟩ hv
    simp only at hv
    subst hv
    constructor
    · intro h
      simp [sbcDatas, datasSizeBytes]
    · intro h
      simp [datasSizeBytes] at h
  | cons d ds ih =>
    rintro ⟨sz, val, gb⟩ hv
    simp only at hv
    subst hv
    simp only [sbcDatas, sbcOnData, validate_and_subtract, datasSizeBytes]
    by_cases hD : sz < dataSizeBytes d
    · simp only [if_pos hD]
      simp only [SBCState.size] at hD ⊢
      constructor
      · intro h
        omega
      · intro h
        simp
    · simp only [if_neg hD]
      simp only [SBCState.size] at hD ⊢
      simp only [Bool.not_true, if_neg (by simp : ¬ (!true) = true)]
      have ihh := ih ⟨sz - dataSizeBytes d, true, gb⟩ rfl
      simp only [SBCState.size, SBCState.valid, SBCState.gbl] at ihh
      constructor
      · intro h
        rw [(ihh.1 (by omega) : _)]
        have heq : sz - dataSizeBytes d - datasSizeBytes ds
            = sz - (dataSizeBytes d + datasSizeBytes ds) := by omega
        rw [heq]
        simp
      · intro h
        exact ihh.2 (by omega)



theorem sbc_prop_all (n : Nat) :
    (∀ g : GroupEnc, sizeOf g ≤ n → PGroup g)
    ∧ (∀ es : List EntryEnc, sizeOf es ≤ n → PEntries es)
    ∧ (∀ e : EntryEnc, sizeOf e ≤ n → PEntry e)
    ∧ (∀ gs : List GroupEnc, sizeOf gs ≤ n → PGroups gs) := by
  induction n using Nat.strong_induction_on with
  | _ n ih =>
    refine ⟨?_, ?_, ?_, ?_⟩
    · -- PGroup
      rintro ⟨hs, bl, es⟩ hsz
      have hes : PEntries es := by
        have hlt : sizeOf es < n := by
          simp only [GroupEnc.mk.sizeOf_spec, sizeOf_nat] at hsz
          omega
        exact (ih (sizeOf es) hlt).2.1 es (Nat.le_refl _)
      rintro ⟨sz, val, gb⟩ hv
      simp only at hv
      subst hv
      simp only [PGroup, sbcOnGroup, groupSizeBytes, validate_and_subtract,
        SBCState.size, SBCState.valid, SBCState.gbl]
      by_cases hH : sz < hs
      · simp only [if_pos hH]
        constructor
        · intro h
          omega
        · intro h
          simp
      · simp only [if_neg hH]
        have ihh := hes ⟨sz - hs, true, bl⟩ rfl
        simp only [SBCState.size, SBCState.valid, SBCState.gbl] at ihh
        constructor
        · intro h
          simp only [Bool.not_true, Bool.false_eq_true, if_false]
          rw [(ihh.1 (by omega) : _)]
          have heq : sz - hs - entriesSizeBytes bl es
              = sz - (hs + entriesSizeBytes bl es) := by omega
          simp [heq]
        · intro h
          by_cases hE : sz - hs < entriesSizeBytes bl es
          · have h2 := ihh.2 hE
            simp only [Bool.not_true, Bool.false_eq_true, if_false, h2]
            simp
          · omega
    · -- PEntries
      intro es
      induction es with
      | nil =>
        intro hsz
        rintro ⟨sz, val, gb⟩ hv
        simp only at hv
        subst hv
        simp only [PEntries, sbcEntries, entriesSizeBytes, SBCState.size,
          SBCState.valid, SBCState.gbl]
        constructor
        · intro h
          simp
        · intro h
          omega
      | cons e es ihes =>
        intro hsz
        have hE : PEntry e := by
          have hlt : sizeOf e < n := by
            simp only [List.cons.sizeOf_spec] at hsz
            omega
          exact (ih (sizeOf e) hlt).2.2.1 e (Nat.le_refl _)
        have hEs : PEntries es := ihes (by
          simp only [List.cons.sizeOf_spec] at hsz
          omega)
        rintro ⟨sz, val, gb⟩ hv
        simp only at hv
        subst hv
        have ih1 := hE ⟨sz, true, gb⟩ rfl
        simp only [SBCState.size, SBCState.valid, SBCState.gbl] at ih1
        simp only [PEntries, sbcEntries, entriesSizeBytes, SBCState.size,
          SBCState.valid, SBCState.gbl]
        by_cases h1 : sz < entrySizeBytes gb e
        · have h2 := ih1.2 h1
          constructor
          · intro h
            omega
          · intro h
            rw [if_pos h2.2]
            exact h2.1
        · rw [ih1.1 (by omega)]
          simp only [Bool.false_eq_true, if_false]
          have ih2 := hEs ⟨sz - entrySizeBytes gb e, true, gb⟩ rfl
          simp only [SBCState.size, SBCState.valid, SBCState.gbl] at ih2
          constructor
          · intro h
            rw [ih2.1 (by omega)]
            have heq : sz - entrySizeBytes gb e - entriesSizeBytes gb es
                = sz - (entrySizeBytes gb e + entriesSizeBytes gb es) := by omega
            rw [heq]
          · intro h
            exact ih2.2 (by omega)
    · -- PEntry
      rintro ⟨gs, ds⟩ hsz
      have hgs : PGroups gs := by
        have hlt : sizeOf gs < n := by
          simp only [EntryEnc.mk.sizeOf_spec] at hsz
          omega
        exact (ih (sizeOf gs) hlt).2.2.2 gs (Nat.le_refl _)
      rintro ⟨sz, val, gb⟩ hv
      simp only at hv
      subst hv
      simp only [PEntry, sbcOnEntry, entrySizeBytes, validate_and_subtract,
        SBCState.size, SBCState.valid, SBCState.gbl]
      by_cases hB : sz < gb
      · simp only [if_pos hB]
        constructor
        · intro h
          omega
        · intro h
          simp
      · simp only [if_neg hB]
        have ihg := hgs ⟨sz - gb, true, gb⟩ rfl
        simp only [SBCState.size, SBCState.valid, SBCState.gbl] at ihg
        constructor
        · intro h
          simp only [Bool.not_true, Bool.false_eq_true, if_false]
          rw [ihg.1 (by omega)]
          have ihd := sbcDatas_spec ds ⟨sz - gb - groupsSizeBytes gs, true, gb⟩ rfl
          simp only [SBCState.size, SBCState.valid, SBCState.gbl] at ihd
          simp only [Bool.false_eq_true, if_false]
          rw [ihd.1 (by omega)]
          have heq : sz - gb - groupsSizeBytes gs - datasSizeBytes ds
              = sz - (gb + groupsSizeBytes gs + datasSizeBytes ds) := by omega
          simp [heq]
        · intro h
          simp only [Bool.not_true, Bool.false_eq_true, if_false]
          by_cases hG : sz - gb < groupsSizeBytes gs
          · have h2 := ihg.2 hG
            rw [if_pos h2.2, h2.1]
            simp
          · rw [ihg.1 (by omega)]
            simp only [Bool.false_eq_true, if_false]
            have ihd := sbcDatas_spec ds ⟨sz - gb - groupsSizeBytes gs, true, gb⟩ rfl
            simp only [SBCState.size, SBCState.valid, SBCState.gbl] at ihd
            have h3 := ihd.2 (by omega)
            rw [h3.1]
            simp
    · -- PGroups
      intro gs
      induction gs with
      | nil =>
        intro hsz
        rintro ⟨sz, val, gb⟩ hv
        simp only at hv
        subst hv
        simp only [PGroups, sbcGroups, groupsSizeBytes, SBCState.size,
          SBCState.valid, SBCState.gbl]
        constructor
        · intro h
          simp
        · intro h
          omega
      | cons g gs ihgs =>
        intro hsz
        have hG : PGroup g := by
          have hlt : sizeOf g < n := by
            simp only [List.cons.sizeOf_spec] at hsz
            omega
          exact (ih (sizeOf g) hlt).1 g (Nat.le_refl _)
        have hGs : PGroups gs := ihgs (by
          simp only [List.cons.sizeOf_spec] at hsz
          omega)
        rintro ⟨sz, val, gb⟩ hv
        simp only at hv
        subst hv
        have ih1 := hG ⟨sz, true, gb⟩ rfl
        simp only [SBCState.size, SBCState.valid, SBCState.gbl] at ih1
        simp only [PGroups, sbcGroups, groupsSizeBytes, SBCState.size,
          SBCState.valid, SBCState.gbl]
        by_cases h1 : sz < groupSizeBytes g
        · have h2 := ih1.2 h1
          constructor
          · intro h
            omega
          · intro h
            rw [if_pos h2.2]
            exact ⟨h2.1, rfl⟩
        · rw [ih1.1 (by omega)]
          simp only [Bool.false_eq_true, if_false]
          have ih2 := hGs ⟨sz - groupSizeBytes g, true, gb⟩ rfl
          simp only [SBCState.size, SBCState.valid, SBCState.gbl] at ih2
          constructor
          · intro h
            rw [ih2.1 (by omega)]
            have heq : sz - groupSizeBytes g - groupsSizeBytes gs
                = sz - (groupSizeBytes g + groupsSizeBytes gs) := by omega
            rw [heq]
          · intro h
            exact ih2.2 (by omega)



theorem sbcOnMessage_spec (msg : MsgEnc) (size : Nat) :
    (msgSizeBytes msg ≤ size →
      sbcOnMessage msg ⟨size, true, 0⟩ = ⟨size - msgSizeBytes msg, true, 0⟩)
    ∧ (size < msgSizeBytes msg →
      (sbcOnMessage msg ⟨size, true, 0⟩).valid = false) := by
  obtain ⟨hs, bl, gs, ds⟩ := msg
  have hgs : PGroups gs := (sbc_prop_all (sizeOf gs)).2.2.2 gs (Nat.le_refl _)
  simp only [msgSizeBytes, sbcOnMessage, validate_and_subtract,
    SBCState.size, SBCState.valid, SBCState.gbl]
  by_cases h1 : size < hs
  · simp only [if_pos h1]
    constructor
    · intro h
      omega
    · intro h
      simp
  · simp only [if_neg h1]
    by_cases h2 : size - hs < bl
    · simp only [if_pos h2]
      constructor
      · intro h
        omega
      · intro h
        simp
    · simp only [if_neg h2]
      have ihg := hgs ⟨size - hs - bl, true, 0⟩ rfl
      simp only [SBCState.size, SBCState.valid, SBCState.gbl] at ihg
      by_cases h3 : size - hs - bl < groupsSizeBytes gs
      · have hh := ihg.2 h3
        simp only [Bool.not_true, Bool.false_eq_true, if_false]
        constructor
        · intro h
          omega
        · intro h
          rw [if_pos hh.2]
          exact hh.1
      · simp only [Bool.not_true, Bool.false_eq_true, if_false]
        rw [ihg.1 (by omega)]
        simp only [Bool.false_eq_true, if_false]
        have ihd := sbcDatas_spec ds ⟨size - hs - bl - groupsSizeBytes gs, true, 0⟩ rfl
        simp only [SBCState.size, SBCState.valid, SBCState.gbl] at ihd
        by_cases h4 : size - hs - bl - groupsSizeBytes gs < datasSizeBytes ds
        · have hh := ihd.2 h4
          constructor
          · intro h
            omega
          · intro h
            rw [hh.1]
        · rw [ihd.1 (by omega)]
          simp only [SBCState.size, SBCState.valid]
          constructor
          · intro h
            have heq : size - hs - bl - groupsSizeBytes gs - datasSizeBytes ds
                = size - (hs + bl + groupsSizeBytes gs + datasSizeBytes ds) := by
              omega
            rw [heq]
          · intro h
            omega

/-- C1: for every message or group view and every buffer size,
`size_bytes_checked(view, size)` returns `{valid: false}` when `size` is
smaller than the view's true encoded size — whichever structural boundary
(header, fixed block, group dimension, group entry, or data block) the
truncation falls on — and returns `{valid: true, size: <true size>}`
whenever `size` is at least the true encoded size. -/
theorem c1_size_bytes_checked (msg : MsgEnc) (g : GroupEnc) (size : Nat) :
    size_bytes_checked_msg msg size
      = (if msgSizeBytes msg ≤ size then ⟨true, msgSizeBytes msg⟩
         else ⟨false, 0⟩)
    ∧ size_bytes_checked_group g size
      = (if groupSizeBytes g ≤ size then ⟨true, groupSizeBytes g⟩
         else ⟨false, 0⟩) := by
  constructor
  · have hspec := sbcOnMessage_spec msg size
    simp only [size_bytes_checked_msg]
    by_cases h1 : size < msg.headerSize
    · rw [if_pos h1]
      have hhs : msg.headerSize ≤ msgSizeBytes msg := by
        unfold msgSizeBytes
        omega
      rw [if_neg (by omega)]
    · rw [if_neg h1]
      by_cases h2 : msgSizeBytes msg ≤ size
      · rw [hspec.1 h2]
        simp only [SBCState.size, SBCState.valid]
        rw [if_pos trivial, if_pos h2]
        have heq : size - (size - msgSizeBytes msg) = msgSizeBytes msg := by
          omega
        rw [heq]
      · have hh := hspec.2 (by omega)
        rw [hh]
        rw [if_neg (show ¬(false = true) by simp), if_neg h2]
  · have hg : PGroup g := (sbc_prop_all (sizeOf g)).1 g (Nat.le_refl _)
    simp only [size_bytes_checked_group]
    by_cases h1 : size < g.headerSize
    · rw [if_pos h1]
      have hhs : g.headerSize ≤ groupSizeBytes g := by
        obtain ⟨hs, bl, es⟩ := g
        simp [GroupEnc.headerSize, groupSizeBytes]
      rw [if_neg (by omega)]
    · rw [if_neg h1]
      have ihg := hg ⟨size, true, 0⟩ rfl
      simp only [SBCState.size, SBCState.valid, SBCState.gbl] at ihg
      by_cases h2 : size < groupSizeBytes g
      · have hh := (ihg.2 h2).1
        rw [hh, if_neg (show ¬(false = true) by simp),
          if_neg (show ¬(groupSizeBytes g ≤ size) by omega)]
      · rw [ihg.1 (by omega)]
        simp only [SBCState.size, SBCState.valid]
        rw [if_pos trivial, if_pos (show groupSizeBytes g ≤ size by omega)]
        have heq : size - (size - groupSizeBytes g) = groupSizeBytes g := by
          omega
        rw [heq]



/-- `detail::forward_iterator` (sbepp.hpp:1701-1772): pointer, index and
the enclosing group's `blockLength` (the `end` pointer member only feeds
`SBEPP_SIZE_CHECK`). -/
structure FwdIter where
  ptr : Nat
  index : Nat
  blockLength : Nat
deriving DecidableEq, Repr

/-- `forward_iterator::operator++` (sbepp.hpp:1738-1744): advance `ptr`
by `size_bytes(*it)` — the *current entry's* true encoded size, computed
from its own content with the enclosing group's block length, not the
header's `blockLength` alone — and increment `index`. -/
def fwdInc (it : FwdIter) (e : EntryEnc) : FwdIter :=
  { it with ptr := it.ptr + entrySizeBytes it.blockLength e,
            index := it.index + 1 }

/-- Repeated `operator++` across the group's parsed entries (one
increment per entry visited between `begin()` and `end()`). -/
def fwdIterate (it : FwdIter) : List EntryEnc → FwdIter
  | [] => it
  | e :: es => fwdIterate (fwdInc it e) es

/-- `nested_group_base::begin()` (sbepp.hpp:2408-2416): entry pointer at
`addressof + size_bytes(dimension)`, index 0, the dimension's
`blockLength`. -/
def nestedBegin (g : GroupEnc) (addr : Nat) : FwdIter :=
  ⟨addr + g.headerSize, 0, g.blockLength⟩

/-- `nested_group_base::end()` (sbepp.hpp:2419-2426) carries index
`numInGroup` (its `ptr` is `nullptr` and never compared). -/
def nestedEndIndex (g : GroupEnc) : Nat :=
  g.entries.length

/-- `forward_iterator::operator==` (sbepp.hpp:1753-1757): index-only
comparison. -/
def fwdIterEq (a b : FwdIter) : Bool :=
  a.index == b.index

theorem fwdIterate_spec (es : List EntryEnc) :
    ∀ it : FwdIter, fwdIterate it es =
      ⟨it.ptr + entriesSizeBytes it.blockLength es, it.index + es.length,
        it.blockLength⟩ := by
  induction es with
  | nil =>
    intro it
    simp [fwdIterate, entriesSizeBytes]
  | cons e es ih =>
    intro it
    simp only [fwdIterate, entriesSizeBytes, ih, fwdInc, List.length_cons]
    simp only [FwdIter.mk.injEq]
    refine ⟨by omega, by omega, trivial⟩

/-- C8: iterating a nested group from `begin()` with `operator++` visits
exactly `numInGroup` entries (the index rises from 0 to `numInGroup`,
where it first compares equal to `end()`), each increment advances the
pointer by the current entry's true encoded size, and after the last
increment the pointer sits exactly at `addressof(group) +
size_bytes(group)` — the start of the level following the group. -/
theorem c8_nested_group_iteration (g : GroupEnc) (addr : Nat) :
    (fwdIterate (nestedBegin g addr) g.entries).ptr = addr + groupSizeBytes g
    ∧ (fwdIterate (nestedBegin g addr) g.entries).index = nestedEndIndex g
    ∧ fwdIterEq (fwdIterate (nestedBegin g addr) g.entries)
        ⟨0, nestedEndIndex g, g.blockLength⟩ = true := by
  obtain ⟨hs, bl, es⟩ := g
  rw [fwdIterate_spec]
  simp [nestedBegin, nestedEndIndex, fwdIterEq, GroupEnc.headerSize,
    GroupEnc.blockLength, GroupEnc.entries, groupSizeBytes]
  omega

end Sbepp
